import Mathlib

/-!
Shallow embedding of the allocation engine of `supplier_quote_optimizer.py`
(the consolidation logic behind the "Generate Final Allocation" button,
lines 1180 to 1273, together with the data-cleaning step, lines 770 to 779).

Quantities and prices are modelled as rationals; part numbers and supplier
names as strings.  Pandas data frames become lists of records, the
`supplier_selections` session dictionary becomes an association list whose
lookup returns the first matching key, and `sort_values` on the
`UnitPrice` column becomes a stable insertion sort keyed on that field.
-/

namespace SupplierQuoteOptimizer

/-- One row of the cleaned orders table: columns `PartNumber`, `QtyRequired`. -/
structure OrderRow where
  PartNumber : String
  QtyRequired : ℚ
deriving DecidableEq, Repr

/-- One row of the cleaned quotes table: columns `PartNumber`, `Supplier`,
`UnitPrice`, `AvailableQty`. -/
structure QuoteRow where
  PartNumber : String
  Supplier : String
  UnitPrice : ℚ
  AvailableQty : ℚ
deriving DecidableEq, Repr

/-- One record appended to the `final_allocation` list (source lines 1203,
1214, 1235, 1254 and 1266): keys `PartNumber`, `Supplier`, `QtyAllocated`,
`UnitPrice`, `TotalCost`, `AllocationSource`. -/
structure AllocationLine where
  PartNumber : String
  Supplier : String
  QtyAllocated : ℚ
  UnitPrice : ℚ
  TotalCost : ℚ
  AllocationSource : String
deriving DecidableEq, Repr

/-- Data cleaning of the orders table (source line 777):
keep rows with `QtyRequired > 0`. -/
def cleanOrders (orders : List OrderRow) : List OrderRow :=
  orders.filter (fun o => decide (0 < o.QtyRequired))

/-- Data cleaning of the quotes table (source line 779):
keep rows with `UnitPrice > 0` and `AvailableQty > 0`. -/
def cleanQuotes (quotes : List QuoteRow) : List QuoteRow :=
  quotes.filter (fun q => decide (0 < q.UnitPrice) && decide (0 < q.AvailableQty))

/-- Helper for `uniqueKeys`: walk the column keeping the values that have
not appeared before. -/
def uniqueKeysAux (seen : List String) : List String → List String
  | [] => []
  | p :: rest =>
    if p ∈ seen then uniqueKeysAux seen rest
    else p :: uniqueKeysAux (p :: seen) rest

/-- Models `orders['PartNumber'].unique()` (source line 1183): the distinct
values in first-occurrence order. -/
def uniqueKeys (l : List String) : List String := uniqueKeysAux [] l

/-- Models the dictionary lookup `st.session_state.supplier_selections[part]`
(source lines 1190 and 1192), returning `none` when `part` is not a key. -/
def lookupSel (sels : List (String × String)) (part : String) : Option String :=
  (sels.find? (fun kv => kv.fst == part)).map (fun kv => kv.snd)

/-- Models `.sort_values('UnitPrice')` (source lines 1229 and 1247) as a
stable sort on the `UnitPrice` column. -/
def sortByUnitPrice (qs : List QuoteRow) : List QuoteRow :=
  List.insertionSort (fun a b => a.UnitPrice ≤ b.UnitPrice) qs

/-- The auto-optimization loop of the unpinned path (source lines 1249 to
1262): walk the price-sorted quotes, allocate `min(qty_needed, AvailableQty)`
per row while positive, and return the emitted lines with the leftover
quantity. -/
def autoLoop (part : String) (qtyNeeded : ℚ) : List QuoteRow → List AllocationLine × ℚ
  | [] => ([], qtyNeeded)
  | q :: rest =>
    if qtyNeeded ≤ 0 then ([], qtyNeeded)
    else
      let allocQty := min qtyNeeded q.AvailableQty
      if 0 < allocQty then
        let res := autoLoop part (qtyNeeded - allocQty) rest
        (⟨part, q.Supplier, allocQty, q.UnitPrice, allocQty * q.UnitPrice,
          "Auto-Optimized"⟩ :: res.1, res.2)
      else
        autoLoop part qtyNeeded rest

/-- The loop allocating the remainder after a pinned supplier was partially
used (source lines 1231 to 1243).  Unlike `autoLoop` it appends a line
without checking the allocated quantity for positivity; the list it walks
was filtered to `AvailableQty > 0` at source line 1228. -/
def remainingLoop (part : String) (remainingQty : ℚ) : List QuoteRow → List AllocationLine × ℚ
  | [] => ([], remainingQty)
  | q :: rest =>
    if remainingQty ≤ 0 then ([], remainingQty)
    else
      let allocQty := min remainingQty q.AvailableQty
      let res := remainingLoop part (remainingQty - allocQty) rest
      (⟨part, q.Supplier, allocQty, q.UnitPrice, allocQty * q.UnitPrice,
        "Auto-Optimized (Remaining)"⟩ :: res.1, res.2)

/-- The shortage record appended at source lines 1266 to 1273. -/
def shortageLine (part : String) (qty : ℚ) : AllocationLine :=
  ⟨part, "N/A (SHORTAGE)", qty, 0, 0, "Shortage"⟩

/-- The body of the per-part iteration of the final-allocation generator
(source lines 1190 to 1273): manual-selection branch (full or part-way,
or a pin whose supplier has no offer), auto-optimization branch, and the
trailing shortage record. -/
def allocatePart (quotes : List QuoteRow) (sels : List (String × String))
    (part : String) (qtyNeeded : ℚ) : List AllocationLine :=
  let step : List AllocationLine × ℚ :=
    match lookupSel sels part with
    | some selectedSupplier =>
      let pinQuotes := quotes.filter (fun q =>
        q.PartNumber == part && q.Supplier == selectedSupplier)
      match pinQuotes with
      | [] =>
        -- source line 1196: the branch body is guarded by
        -- `if not part_quotes.empty`; with no matching offer nothing
        -- is allocated and `qty_needed` keeps its full value.
        ([], qtyNeeded)
      | sq :: _ =>
        if sq.AvailableQty ≥ qtyNeeded then
          ([⟨part, selectedSupplier, qtyNeeded, sq.UnitPrice,
             qtyNeeded * sq.UnitPrice, "Manual Selection"⟩], 0)
        else
          let remainingQuotes := sortByUnitPrice (quotes.filter (fun q =>
            q.PartNumber == part && q.Supplier != selectedSupplier &&
            decide (0 < q.AvailableQty)))
          let res := remainingLoop part (qtyNeeded - sq.AvailableQty) remainingQuotes
          (⟨part, selectedSupplier, sq.AvailableQty, sq.UnitPrice,
            sq.AvailableQty * sq.UnitPrice, "Manual Selection (Partial)"⟩ :: res.1,
           res.2)
    | none =>
      autoLoop part qtyNeeded
        (sortByUnitPrice (quotes.filter (fun q => q.PartNumber == part)))
  if 0 < step.2 then step.1 ++ [shortageLine part step.2] else step.1

/-- One iteration of the generator loop (source lines 1184 to 1188 plus the
body): look up the first order row of the part for its required quantity —
`part_orders.iloc[0]` — and run the per-part allocation; an empty lookup is
skipped (`continue`). -/
def partBlock (orders : List OrderRow) (quotes : List QuoteRow)
    (sels : List (String × String)) (part : String) : List AllocationLine :=
  match orders.find? (fun o => o.PartNumber == part) with
  | none => []
  | some o => allocatePart quotes sels part o.QtyRequired

/-- The final-allocation generator (source lines 1180 to 1273): iterate the
distinct ordered parts in first-occurrence order and concatenate the
per-part allocations. -/
def final_allocation (orders : List OrderRow) (quotes : List QuoteRow)
    (sels : List (String × String)) : List AllocationLine :=
  (uniqueKeys (orders.map (fun o => o.PartNumber))).flatMap
    (partBlock orders quotes sels)

/-- The slice of `st.session_state` the generator reads and writes: the
`supplier_selections` dictionary and the stored `final_allocation` list
(source lines 1190 and 1276). -/
structure SessionState where
  supplier_selections : List (String × String)
  final_allocation : List AllocationLine
deriving DecidableEq, Repr

/-- One click of the "Generate Final Allocation" button (source lines 1178
to 1276): rebuild the allocation list from the orders, quotes and current
selections, and store it, replacing whatever was stored before. -/
def generateFinalAllocation (orders : List OrderRow) (quotes : List QuoteRow)
    (st : SessionState) : SessionState :=
  { st with final_allocation := final_allocation orders quotes st.supplier_selections }

/-- The allocation lines of one part. -/
def linesFor (alloc : List AllocationLine) (p : String) : List AllocationLine :=
  alloc.filter (fun l => l.PartNumber == p)

/-- Total allocated quantity of a list of lines. -/
def qtySum (ls : List AllocationLine) : ℚ :=
  (ls.map (fun l => l.QtyAllocated)).sum

/-- Total cost of a list of lines. -/
def costSum (ls : List AllocationLine) : ℚ :=
  (ls.map (fun l => l.TotalCost)).sum

/-- The shortage lines of a list of lines. -/
def shortageLines (ls : List AllocationLine) : List AllocationLine :=
  ls.filter (fun l => l.AllocationSource == "Shortage")

/-- The lines backed by a supplier offer (everything but shortage lines). -/
def properLines (ls : List AllocationLine) : List AllocationLine :=
  ls.filter (fun l => l.AllocationSource != "Shortage")

/-- Helper for `firstOrderRows`: keep each row whose part number has not
appeared before. -/
def firstOrderRowsAux (seen : List String) : List OrderRow → List OrderRow
  | [] => []
  | o :: rest =>
    if o.PartNumber ∈ seen then firstOrderRowsAux seen rest
    else o :: firstOrderRowsAux (o.PartNumber :: seen) rest

/-- The order list with every later duplicate of a part number dropped:
only the first row of each part remains, in order.  The generator reads the
order list only through `unique()` and `iloc[0]`, so this is the part of the
input it actually consumes. -/
def firstOrderRows (orders : List OrderRow) : List OrderRow :=
  firstOrderRowsAux [] orders

/-- A feasible assignment of quantities to a list of offers: one quantity
per offer, nonnegative and within that offer availability. -/
def Assignment (offers : List QuoteRow) (qs : List ℚ) : Prop :=
  List.Forall₂ (fun a o => 0 ≤ a ∧ a ≤ o.AvailableQty) qs offers

/-- The cost of an assignment of quantities to offers. -/
def assignCost (offers : List QuoteRow) (qs : List ℚ) : ℚ :=
  ((qs.zip offers).map (fun x => x.1 * x.2.UnitPrice)).sum

/-! ## Basic facts about the two greedy loops -/

theorem autoLoop_partNumber (part : String) (n : ℚ) (qs : List QuoteRow) :
    ∀ l ∈ (autoLoop part n qs).1, l.PartNumber = part := by
  induction qs generalizing n with
  | nil => intro l hl; simp [autoLoop] at hl
  | cons q rest ih =>
    intro l hl
    simp only [autoLoop] at hl
    split_ifs at hl with h1 h2
    · simp at hl
    · rcases List.mem_cons.mp hl with h | h
      · rw [h]
      · exact ih _ l h
    · exact ih _ l hl

theorem autoLoop_source (part : String) (n : ℚ) (qs : List QuoteRow) :
    ∀ l ∈ (autoLoop part n qs).1, l.AllocationSource = "Auto-Optimized" := by
  induction qs generalizing n with
  | nil => intro l hl; simp [autoLoop] at hl
  | cons q rest ih =>
    intro l hl
    simp only [autoLoop] at hl
    split_ifs at hl with h1 h2
    · simp at hl
    · rcases List.mem_cons.mp hl with h | h
      · rw [h]
      · exact ih _ l h
    · exact ih _ l hl

theorem remainingLoop_partNumber (part : String) (n : ℚ) (qs : List QuoteRow) :
    ∀ l ∈ (remainingLoop part n qs).1, l.PartNumber = part := by
  induction qs generalizing n with
  | nil => intro l hl; simp [remainingLoop] at hl
  | cons q rest ih =>
    intro l hl
    simp only [remainingLoop] at hl
    split_ifs at hl with h1
    · simp at hl
    · rcases List.mem_cons.mp hl with h | h
      · rw [h]
      · exact ih _ l h

theorem remainingLoop_source (part : String) (n : ℚ) (qs : List QuoteRow) :
    ∀ l ∈ (remainingLoop part n qs).1, l.AllocationSource = "Auto-Optimized (Remaining)" := by
  induction qs generalizing n with
  | nil => intro l hl; simp [remainingLoop] at hl
  | cons q rest ih =>
    intro l hl
    simp only [remainingLoop] at hl
    split_ifs at hl with h1
    · simp at hl
    · rcases List.mem_cons.mp hl with h | h
      · rw [h]
      · exact ih _ l h

/-- The quantities emitted by the auto loop sum to the consumed demand. -/
theorem autoLoop_sum (part : String) (n : ℚ) (qs : List QuoteRow) :
    (((autoLoop part n qs).1.map (fun l => l.QtyAllocated)).sum) = n - (autoLoop part n qs).2 := by
  induction qs generalizing n with
  | nil => simp [autoLoop]
  | cons q rest ih =>
    simp only [autoLoop]
    split_ifs with h1 h2
    · simp
    · simpa [ih (n - min n q.AvailableQty)] using by ring
    · exact ih n

/-- The quantities emitted by the remaining loop sum to the consumed demand. -/
theorem remainingLoop_sum (part : String) (n : ℚ) (qs : List QuoteRow) :
    (((remainingLoop part n qs).1.map (fun l => l.QtyAllocated)).sum)
      = n - (remainingLoop part n qs).2 := by
  induction qs generalizing n with
  | nil => simp [remainingLoop]
  | cons q rest ih =>
    simp only [remainingLoop]
    split_ifs with h1
    · simp
    · simpa [ih (n - min n q.AvailableQty)] using by ring

/-- The leftover of the auto loop stays between `0` and the demand. -/
theorem autoLoop_rem_bounds (part : String) (n : ℚ) (qs : List QuoteRow) (hn : 0 ≤ n) :
    0 ≤ (autoLoop part n qs).2 ∧ (autoLoop part n qs).2 ≤ n := by
  induction qs generalizing n with
  | nil => simp [autoLoop, hn]
  | cons q rest ih =>
    simp only [autoLoop]
    split_ifs with h1 h2
    · exact ⟨hn, le_refl n⟩
    · have ha : min n q.AvailableQty ≤ n := min_le_left _ _
      have := ih (n - min n q.AvailableQty) (by linarith)
      exact ⟨this.1, by linarith [this.2]⟩
    · exact ih n hn

/-- The leftover of the remaining loop stays between `0` and the demand,
provided the offers it walks have nonnegative availability. -/
theorem remainingLoop_rem_bounds (part : String) (n : ℚ) (qs : List QuoteRow)
    (hn : 0 ≤ n) (hq : ∀ q ∈ qs, 0 ≤ q.AvailableQty) :
    0 ≤ (remainingLoop part n qs).2 ∧ (remainingLoop part n qs).2 ≤ n := by
  induction qs generalizing n with
  | nil => simp [remainingLoop, hn]
  | cons q rest ih =>
    simp only [remainingLoop]
    split_ifs with h1
    · exact ⟨hn, le_refl n⟩
    · have hn' : 0 < n := lt_of_not_le h1
      have hqa : 0 ≤ q.AvailableQty := hq q (List.mem_cons_self q rest)
      have ha0 : 0 ≤ min n q.AvailableQty := le_min (le_of_lt hn') hqa
      have ha : min n q.AvailableQty ≤ n := min_le_left _ _
      have := ih (n - min n q.AvailableQty) (by linarith)
        (fun r hr => hq r (List.mem_cons_of_mem q hr))
      exact ⟨this.1, by linarith [this.2]⟩

/-! ## Facts about `uniqueKeys` -/

theorem mem_uniqueKeysAux (seen l : List String) (a : String) :
    a ∈ uniqueKeysAux seen l ↔ a ∈ l ∧ a ∉ seen := by
  induction l generalizing seen with
  | nil => simp [uniqueKeysAux]
  | cons p rest ih =>
    simp only [uniqueKeysAux]
    split_ifs with hp
    · rw [ih]
      simp only [List.mem_cons]
      constructor
      · rintro ⟨h1, h2⟩
        exact ⟨Or.inr h1, h2⟩
      · rintro ⟨h1 | h1, h2⟩
        · exact absurd (h1 ▸ hp) h2
        · exact ⟨h1, h2⟩
    · simp only [List.mem_cons, ih]
      constructor
      · rintro (h | ⟨h1, h2⟩)
        · exact ⟨Or.inl h, h ▸ hp⟩
        · push_neg at h2
          exact ⟨Or.inr h1, h2.2⟩
      · rintro ⟨h1 | h1, h2⟩
        · exact Or.inl h1
        · by_cases hap : a = p
          · exact Or.inl hap
          · refine Or.inr ⟨h1, ?_⟩
            push_neg
            exact ⟨hap, h2⟩

theorem mem_uniqueKeys (l : List String) (a : String) : a ∈ uniqueKeys l ↔ a ∈ l := by
  simp [uniqueKeys, mem_uniqueKeysAux]

theorem uniqueKeysAux_nodup (seen l : List String) : (uniqueKeysAux seen l).Nodup := by
  induction l generalizing seen with
  | nil => simp [uniqueKeysAux]
  | cons p rest ih =>
    simp only [uniqueKeysAux]
    split_ifs with hp
    · exact ih seen
    · refine List.nodup_cons.mpr ⟨fun hmem => ?_, ih (p :: seen)⟩
      exact ((mem_uniqueKeysAux _ _ _).mp hmem).2 (List.mem_cons_self _ _)

theorem uniqueKeys_nodup (l : List String) : (uniqueKeys l).Nodup :=
  uniqueKeysAux_nodup [] l

theorem uniqueKeysAux_append_mem (seen l : List String) (p : String)
    (hp : p ∈ l ∨ p ∈ seen) :
    uniqueKeysAux seen (l ++ [p]) = uniqueKeysAux seen l := by
  induction l generalizing seen with
  | nil =>
    rcases hp with h | h
    · simp at h
    · simp [uniqueKeysAux, h]
  | cons x rest ih =>
    simp only [List.cons_append, uniqueKeysAux]
    split_ifs with hx
    · apply ih
      rcases hp with h | h
      · rcases List.mem_cons.mp h with h' | h'
        · exact Or.inr (h' ▸ hx)
        · exact Or.inl h'
      · exact Or.inr h
    · congr 1
      apply ih
      rcases hp with h | h
      · rcases List.mem_cons.mp h with h' | h'
        · exact Or.inr (h' ▸ List.mem_cons_self _ _)
        · exact Or.inl h'
      · exact Or.inr (List.mem_cons_of_mem _ h)

theorem uniqueKeys_append_mem (l : List String) (p : String) (hp : p ∈ l) :
    uniqueKeys (l ++ [p]) = uniqueKeys l :=
  uniqueKeysAux_append_mem [] l p (Or.inl hp)

/-! ## Branch equations for `allocatePart` -/

theorem allocatePart_noPin (quotes : List QuoteRow) (sels : List (String × String))
    (part : String) (n : ℚ) (hsel : lookupSel sels part = none) :
    allocatePart quotes sels part n =
      (if 0 < (autoLoop part n
          (sortByUnitPrice (quotes.filter (fun q => q.PartNumber == part)))).2 then
        (autoLoop part n
          (sortByUnitPrice (quotes.filter (fun q => q.PartNumber == part)))).1
          ++ [shortageLine part (autoLoop part n
            (sortByUnitPrice (quotes.filter (fun q => q.PartNumber == part)))).2]
      else
        (autoLoop part n
          (sortByUnitPrice (quotes.filter (fun q => q.PartNumber == part)))).1) := by
  simp only [allocatePart, hsel]

theorem allocatePart_pinNoOffer (quotes : List QuoteRow) (sels : List (String × String))
    (part : String) (n : ℚ) (sel : String) (hsel : lookupSel sels part = some sel)
    (hpq : quotes.filter (fun q => q.PartNumber == part && q.Supplier == sel) = []) :
    allocatePart quotes sels part n = if 0 < n then [shortageLine part n] else [] := by
  simp only [allocatePart, hsel, hpq]
  split_ifs <;> simp

theorem allocatePart_pinFull (quotes : List QuoteRow) (sels : List (String × String))
    (part : String) (n : ℚ) (sel : String) (sq : QuoteRow) (tl : List QuoteRow)
    (hsel : lookupSel sels part = some sel)
    (hpq : quotes.filter (fun q => q.PartNumber == part && q.Supplier == sel) = sq :: tl)
    (hge : sq.AvailableQty ≥ n) :
    allocatePart quotes sels part n =
      [⟨part, sel, n, sq.UnitPrice, n * sq.UnitPrice, "Manual Selection"⟩] := by
  simp only [allocatePart, hsel, hpq, hge, if_true, lt_irrefl, if_false]

theorem allocatePart_pinPart (quotes : List QuoteRow) (sels : List (String × String))
    (part : String) (n : ℚ) (sel : String) (sq : QuoteRow) (tl : List QuoteRow)
    (hsel : lookupSel sels part = some sel)
    (hpq : quotes.filter (fun q => q.PartNumber == part && q.Supplier == sel) = sq :: tl)
    (hlt : ¬ (sq.AvailableQty ≥ n)) :
    allocatePart quotes sels part n =
      ⟨part, sel, sq.AvailableQty, sq.UnitPrice, sq.AvailableQty * sq.UnitPrice,
        "Manual Selection (Partial)"⟩ ::
      ((remainingLoop part (n - sq.AvailableQty) (sortByUnitPrice (quotes.filter (fun q =>
          q.PartNumber == part && q.Supplier != sel && decide (0 < q.AvailableQty))))).1
        ++ (if 0 < (remainingLoop part (n - sq.AvailableQty)
              (sortByUnitPrice (quotes.filter (fun q =>
                q.PartNumber == part && q.Supplier != sel &&
                  decide (0 < q.AvailableQty))))).2 then
            [shortageLine part (remainingLoop part (n - sq.AvailableQty)
              (sortByUnitPrice (quotes.filter (fun q =>
                q.PartNumber == part && q.Supplier != sel &&
                  decide (0 < q.AvailableQty))))).2]
          else [])) := by
  simp only [allocatePart, hsel, hpq, hlt, if_false]
  split_ifs with h
  · simp
  · simp

/-! ## Every line produced for a part names that part -/

theorem allocatePart_partNumber (quotes : List QuoteRow) (sels : List (String × String))
    (part : String) (n : ℚ) :
    ∀ l ∈ allocatePart quotes sels part n, l.PartNumber = part := by
  intro l hl
  rcases hsel : lookupSel sels part with _ | sel
  · rw [allocatePart_noPin _ _ _ _ hsel] at hl
    split_ifs at hl with h
    · rcases List.mem_append.mp hl with h' | h'
      · exact autoLoop_partNumber _ _ _ l h'
      · simp only [List.mem_singleton] at h'
        rw [h']; rfl
    · exact autoLoop_partNumber _ _ _ l hl
  · rcases hpq : quotes.filter (fun q => q.PartNumber == part && q.Supplier == sel)
      with _ | ⟨sq, tl⟩
    · rw [allocatePart_pinNoOffer _ _ _ _ _ hsel hpq] at hl
      split_ifs at hl
      · simp only [List.mem_singleton] at hl
        rw [hl]; rfl
      · simp at hl
    · by_cases hge : sq.AvailableQty ≥ n
      · rw [allocatePart_pinFull _ _ _ _ _ _ _ hsel hpq hge] at hl
        simp only [List.mem_singleton] at hl
        rw [hl]
      · rw [allocatePart_pinPart _ _ _ _ _ _ _ hsel hpq hge] at hl
        rcases List.mem_cons.mp hl with h | h
        · rw [h]
        · rcases List.mem_append.mp h with h' | h'
          · exact remainingLoop_partNumber _ _ _ l h'
          · split_ifs at h' with h2
            · simp only [List.mem_singleton] at h'
              rw [h']; rfl
            · simp at h'

theorem partBlock_partNumber (orders : List OrderRow) (quotes : List QuoteRow)
    (sels : List (String × String)) (part : String) :
    ∀ l ∈ partBlock orders quotes sels part, l.PartNumber = part := by
  intro l hl
  unfold partBlock at hl
  rcases hfind : orders.find? (fun o => o.PartNumber == part) with _ | o
  · rw [hfind] at hl; simp at hl
  · rw [hfind] at hl
    exact allocatePart_partNumber _ _ _ _ l hl

/-- Concatenating over distinct keys and then keeping one key's rows gives
exactly that key's block. -/
theorem flatMap_filter_single {α : Type} (keys : List String) (f : String → List α)
    (p : String) (g : α → Bool) (hnd : keys.Nodup) (hp : p ∈ keys)
    (hyes : (f p).filter g = f p)
    (hno : ∀ k ∈ keys, k ≠ p → (f k).filter g = []) :
    (keys.flatMap f).filter g = f p := by
  induction keys with
  | nil => simp at hp
  | cons k ks ih =>
    rw [List.flatMap_cons, List.filter_append]
    rcases List.mem_cons.mp hp with h | h
    · subst h
      have hks : (ks.flatMap f).filter g = [] := by
        rw [List.filter_flatMap]
        apply List.flatMap_eq_nil_iff.mpr
        intro k' hk'
        exact hno k' (List.mem_cons_of_mem _ hk')
          (fun hkp => (List.nodup_cons.mp hnd).1 (hkp ▸ hk'))
      rw [hyes, hks, List.append_nil]
    · have hk : k ≠ p := fun hkp => (List.nodup_cons.mp hnd).1 (hkp ▸ h)
      rw [hno k (List.mem_cons_self _ _) hk,
        ih (List.nodup_cons.mp hnd).2 h
          (fun k' hk' => hno k' (List.mem_cons_of_mem _ hk')),
        List.nil_append]

/-- Keeping the rows of one ordered part in the final allocation yields
exactly the block the per-part loop body produced for it. -/
theorem final_allocation_filter (orders : List OrderRow) (quotes : List QuoteRow)
    (sels : List (String × String)) (p : String)
    (hp : p ∈ orders.map (fun o => o.PartNumber)) :
    (final_allocation orders quotes sels).filter (fun l => l.PartNumber == p)
      = partBlock orders quotes sels p := by
  unfold final_allocation
  apply flatMap_filter_single
  · exact uniqueKeys_nodup _
  · exact (mem_uniqueKeys _ _).mpr hp
  · rw [List.filter_eq_self]
    intro a ha
    exact beq_iff_eq.mpr (partBlock_partNumber _ _ _ _ a ha)
  · intro k hk hkp
    rw [List.filter_eq_nil_iff]
    intro a ha
    rw [beq_iff_eq, partBlock_partNumber _ _ _ _ a ha]
    exact fun h => hkp h

/-! ## Claim C5: full manual selection takes precedence -/

/-- C5: for every part pinned to a supplier whose (first matching) offer has
`AvailableQty ≥ QtyRequired`, the consolidated allocation for that part is a
single line giving the full required quantity to the pinned supplier at that
offer price, with source `Manual Selection`, whatever the other offers are. -/
theorem claim_C5 (orders : List OrderRow) (quotes : List QuoteRow)
    (sels : List (String × String)) (p sel : String) (o : OrderRow)
    (sq : QuoteRow) (tl : List QuoteRow)
    (hp : p ∈ orders.map (fun r => r.PartNumber))
    (hfind : orders.find? (fun r => r.PartNumber == p) = some o)
    (hsel : lookupSel sels p = some sel)
    (hpq : quotes.filter (fun q => q.PartNumber == p && q.Supplier == sel) = sq :: tl)
    (hge : sq.AvailableQty ≥ o.QtyRequired) :
    (final_allocation orders quotes sels).filter (fun l => l.PartNumber == p)
      = [⟨p, sel, o.QtyRequired, sq.UnitPrice, o.QtyRequired * sq.UnitPrice,
          "Manual Selection"⟩] := by
  rw [final_allocation_filter _ _ _ _ hp]
  unfold partBlock
  rw [hfind]
  exact allocatePart_pinFull _ _ _ _ _ _ _ hsel hpq hge

theorem claim_C5_witness :
    (final_allocation [⟨"P4", 5⟩] [⟨"P4", "E", 10, 10⟩, ⟨"P4", "F", 1, 10⟩]
        [("P4", "E")]).filter (fun l => l.PartNumber == "P4")
      = [⟨"P4", "E", 5, 10, 5 * 10, "Manual Selection"⟩] :=
  claim_C5 [⟨"P4", 5⟩] [⟨"P4", "E", 10, 10⟩, ⟨"P4", "F", 1, 10⟩] [("P4", "E")]
    "P4" "E" ⟨"P4", 5⟩ ⟨"P4", "E", 10, 10⟩ [] (by decide) (by decide) (by decide)
    (by decide) (by norm_num)

/-! ## Claim C6: part-way manual selection, then greedy on the rest -/

/-- C6: for every part pinned to a supplier whose (first matching) offer has
`AvailableQty < QtyRequired`, the consolidated allocation for that part opens
with one line consuming the pinned offer in full, source
`Manual Selection (Partial)`, followed by the greedy walk over the
price-sorted offers of the other suppliers, all of whose lines carry source
`Auto-Optimized (Remaining)` (and a trailing shortage line when demand is
still uncovered). -/
theorem claim_C6 (orders : List OrderRow) (quotes : List QuoteRow)
    (sels : List (String × String)) (p sel : String) (o : OrderRow)
    (sq : QuoteRow) (tl : List QuoteRow)
    (hp : p ∈ orders.map (fun r => r.PartNumber))
    (hfind : orders.find? (fun r => r.PartNumber == p) = some o)
    (hsel : lookupSel sels p = some sel)
    (hpq : quotes.filter (fun q => q.PartNumber == p && q.Supplier == sel) = sq :: tl)
    (hlt : sq.AvailableQty < o.QtyRequired) :
    ((final_allocation orders quotes sels).filter (fun l => l.PartNumber == p)
      = ⟨p, sel, sq.AvailableQty, sq.UnitPrice, sq.AvailableQty * sq.UnitPrice,
          "Manual Selection (Partial)"⟩ ::
        ((remainingLoop p (o.QtyRequired - sq.AvailableQty)
            (sortByUnitPrice (quotes.filter (fun q =>
              q.PartNumber == p && q.Supplier != sel && decide (0 < q.AvailableQty))))).1
          ++ (if 0 < (remainingLoop p (o.QtyRequired - sq.AvailableQty)
                (sortByUnitPrice (quotes.filter (fun q =>
                  q.PartNumber == p && q.Supplier != sel &&
                    decide (0 < q.AvailableQty))))).2 then
              [shortageLine p (remainingLoop p (o.QtyRequired - sq.AvailableQty)
                (sortByUnitPrice (quotes.filter (fun q =>
                  q.PartNumber == p && q.Supplier != sel &&
                    decide (0 < q.AvailableQty))))).2]
            else [])))
    ∧ ((remainingLoop p (o.QtyRequired - sq.AvailableQty)
        (sortByUnitPrice (quotes.filter (fun q =>
          q.PartNumber == p && q.Supplier != sel &&
            decide (0 < q.AvailableQty))))).1.all
        (fun l => l.AllocationSource == "Auto-Optimized (Remaining)")) = true := by
  constructor
  · rw [final_allocation_filter _ _ _ _ hp]
    unfold partBlock
    rw [hfind]
    exact allocatePart_pinPart _ _ _ _ _ _ _ hsel hpq (not_le.mpr hlt)
  · rw [List.all_eq_true]
    intro l hl
    exact beq_iff_eq.mpr (remainingLoop_source _ _ _ l hl)

theorem claim_C6_witness :
    ((final_allocation [⟨"P3", 10⟩] [⟨"P3", "C", 8, 3⟩, ⟨"P3", "D", 3, 20⟩]
        [("P3", "C")]).filter (fun l => l.PartNumber == "P3")
      = ⟨"P3", "C", 3, 8, 3 * 8, "Manual Selection (Partial)"⟩ ::
        ((remainingLoop "P3" (10 - 3)
            (sortByUnitPrice (List.filter (fun q =>
              q.PartNumber == "P3" && q.Supplier != "C" && decide (0 < q.AvailableQty))
              [⟨"P3", "C", 8, 3⟩, ⟨"P3", "D", 3, 20⟩]))).1
          ++ (if 0 < (remainingLoop "P3" (10 - 3)
                (sortByUnitPrice (List.filter (fun q =>
                  q.PartNumber == "P3" && q.Supplier != "C" &&
                    decide (0 < q.AvailableQty))
                  [⟨"P3", "C", 8, 3⟩, ⟨"P3", "D", 3, 20⟩]))).2 then
              [shortageLine "P3" (remainingLoop "P3" (10 - 3)
                (sortByUnitPrice (List.filter (fun q =>
                  q.PartNumber == "P3" && q.Supplier != "C" &&
                    decide (0 < q.AvailableQty))
                  [⟨"P3", "C", 8, 3⟩, ⟨"P3", "D", 3, 20⟩]))).2]
            else [])))
    ∧ ((remainingLoop "P3" (10 - 3)
        (sortByUnitPrice (List.filter (fun q =>
          q.PartNumber == "P3" && q.Supplier != "C" && decide (0 < q.AvailableQty))
          [⟨"P3", "C", 8, 3⟩, ⟨"P3", "D", 3, 20⟩]))).1.all
        (fun l => l.AllocationSource == "Auto-Optimized (Remaining)")) = true :=
  claim_C6 [⟨"P3", 10⟩] [⟨"P3", "C", 8, 3⟩, ⟨"P3", "D", 3, 20⟩] [("P3", "C")]
    "P3" "C" ⟨"P3", 10⟩ ⟨"P3", "C", 8, 3⟩ [] (by decide) (by decide) (by decide)
    (by decide) (by norm_num)

/-! ## Observation helpers over allocation lists -/

theorem qtySum_append (a b : List AllocationLine) :
    qtySum (a ++ b) = qtySum a + qtySum b := by
  simp [qtySum]

theorem qtySum_cons (l : AllocationLine) (a : List AllocationLine) :
    qtySum (l :: a) = l.QtyAllocated + qtySum a := by
  simp [qtySum]

theorem mem_sortByUnitPrice (qs : List QuoteRow) (q : QuoteRow) :
    q ∈ sortByUnitPrice qs ↔ q ∈ qs :=
  (List.perm_insertionSort _ qs).mem_iff

/-- Master shape lemma: the per-part block is a list of non-shortage lines
that sum to the consumed demand, followed by one shortage line exactly when
demand is left over. -/
theorem allocatePart_split (quotes : List QuoteRow) (sels : List (String × String))
    (p : String) (n : ℚ) (hq : ∀ q ∈ quotes, 0 ≤ q.AvailableQty) (hn : 0 ≤ n) :
    ∃ ns rem, allocatePart quotes sels p n
        = ns ++ (if 0 < rem then [shortageLine p rem] else [])
      ∧ (∀ l ∈ ns, l.AllocationSource ≠ "Shortage")
      ∧ qtySum ns = n - rem
      ∧ 0 ≤ rem ∧ rem ≤ n := by
  rcases hsel : lookupSel sels p with _ | sel
  · refine ⟨(autoLoop p n (sortByUnitPrice (quotes.filter (fun q => q.PartNumber == p)))).1,
      (autoLoop p n (sortByUnitPrice (quotes.filter (fun q => q.PartNumber == p)))).2,
      ?_, ?_, ?_, ?_, ?_⟩
    · rw [allocatePart_noPin _ _ _ _ hsel]
      split_ifs <;> simp
    · intro l hl
      rw [autoLoop_source _ _ _ l hl]
      simp
    · exact autoLoop_sum _ _ _
    · exact (autoLoop_rem_bounds _ _ _ hn).1
    · exact (autoLoop_rem_bounds _ _ _ hn).2
  · rcases hpq : quotes.filter (fun q => q.PartNumber == p && q.Supplier == sel)
      with _ | ⟨sq, tl⟩
    · refine ⟨[], n, ?_, by simp, by simp [qtySum], hn, le_refl n⟩
      rw [allocatePart_pinNoOffer _ _ _ _ _ hsel hpq]
      simp
    · by_cases hge : sq.AvailableQty ≥ n
      · refine ⟨[⟨p, sel, n, sq.UnitPrice, n * sq.UnitPrice, "Manual Selection"⟩], 0,
          ?_, ?_, by simp [qtySum], le_refl 0, hn⟩
        · rw [allocatePart_pinFull _ _ _ _ _ _ _ hsel hpq hge]
          simp
        · intro l hl
          simp only [List.mem_singleton] at hl
          rw [hl]
          simp
      · have hsq : sq ∈ quotes := by
          have : sq ∈ quotes.filter (fun q => q.PartNumber == p && q.Supplier == sel) :=
            hpq ▸ List.mem_cons_self sq tl
          exact List.mem_of_mem_filter this
        have havail : 0 ≤ sq.AvailableQty := hq sq hsq
        have hlt : sq.AvailableQty < n := lt_of_not_ge hge
        have hrem0 : 0 ≤ n - sq.AvailableQty := by linarith
        have hub : ∀ q ∈ sortByUnitPrice (quotes.filter (fun q =>
            q.PartNumber == p && q.Supplier != sel && decide (0 < q.AvailableQty))),
            0 ≤ q.AvailableQty := by
          intro q hq'
          exact hq q (List.mem_of_mem_filter ((mem_sortByUnitPrice _ _).mp hq'))
        have hb := remainingLoop_rem_bounds p (n - sq.AvailableQty) _ hrem0 hub
        refine ⟨⟨p, sel, sq.AvailableQty, sq.UnitPrice, sq.AvailableQty * sq.UnitPrice,
            "Manual Selection (Partial)"⟩ ::
            (remainingLoop p (n - sq.AvailableQty) (sortByUnitPrice (quotes.filter (fun q =>
              q.PartNumber == p && q.Supplier != sel && decide (0 < q.AvailableQty))))).1,
          (remainingLoop p (n - sq.AvailableQty) (sortByUnitPrice (quotes.filter (fun q =>
            q.PartNumber == p && q.Supplier != sel && decide (0 < q.AvailableQty))))).2,
          ?_, ?_, ?_, hb.1, by linarith [hb.2]⟩
        · rw [allocatePart_pinPart _ _ _ _ _ _ _ hsel hpq hge]
          simp [List.cons_append]
        · intro l hl
          rcases List.mem_cons.mp hl with h | h
          · rw [h]
            simp
          · rw [remainingLoop_source _ _ _ l h]
            simp
        · rw [qtySum_cons]
          have hs := remainingLoop_sum p (n - sq.AvailableQty)
            (sortByUnitPrice (quotes.filter (fun q =>
              q.PartNumber == p && q.Supplier != sel && decide (0 < q.AvailableQty))))
          simp only [qtySum] at hs ⊢
          rw [hs]
          ring

/-! ## Claim C3: conservation and a single shortage line -/

/-- C3: for every ordered part with at least one offer, the allocated
quantities over all of its lines sum to the required quantity, and when the
offer-backed lines do not cover the demand the uncovered remainder appears
as exactly one shortage line (price zero by construction), otherwise no
shortage line exists. -/
theorem claim_C3 (orders : List OrderRow) (quotes : List QuoteRow)
    (sels : List (String × String)) (p : String) (o : OrderRow)
    (hp : p ∈ orders.map (fun r => r.PartNumber))
    (hfind : orders.find? (fun r => r.PartNumber == p) = some o)
    (hqty : 0 < o.QtyRequired)
    (hq : ∀ q ∈ quotes, 0 ≤ q.AvailableQty)
    (_hoffer : quotes.filter (fun q => q.PartNumber == p) ≠ []) :
    qtySum (linesFor (final_allocation orders quotes sels) p) = o.QtyRequired
    ∧ (qtySum (properLines (linesFor (final_allocation orders quotes sels) p)) < o.QtyRequired →
        shortageLines (linesFor (final_allocation orders quotes sels) p)
          = [shortageLine p (o.QtyRequired
              - qtySum (properLines (linesFor (final_allocation orders quotes sels) p)))])
    ∧ (qtySum (properLines (linesFor (final_allocation orders quotes sels) p)) = o.QtyRequired →
        shortageLines (linesFor (final_allocation orders quotes sels) p) = []) := by
  have hlines : linesFor (final_allocation orders quotes sels) p
      = allocatePart quotes sels p o.QtyRequired := by
    unfold linesFor
    rw [final_allocation_filter _ _ _ _ hp]
    unfold partBlock
    rw [hfind]
  obtain ⟨ns, rem, hshape, hnsrc, hsum, h0, hle⟩ :=
    allocatePart_split quotes sels p o.QtyRequired hq (le_of_lt hqty)
  have hproper : properLines (linesFor (final_allocation orders quotes sels) p) = ns := by
    rw [hlines, hshape]
    unfold properLines
    rw [List.filter_append]
    have h1 : ns.filter (fun l => l.AllocationSource != "Shortage") = ns :=
      List.filter_eq_self.mpr (fun a ha => bne_iff_ne.mpr (hnsrc a ha))
    have h2 : (if 0 < rem then [shortageLine p rem] else []).filter
        (fun l => l.AllocationSource != "Shortage") = [] := by
      split_ifs <;> simp [shortageLine]
    rw [h1, h2, List.append_nil]
  have hshort : shortageLines (linesFor (final_allocation orders quotes sels) p)
      = (if 0 < rem then [shortageLine p rem] else []) := by
    rw [hlines, hshape]
    unfold shortageLines
    rw [List.filter_append]
    have h1 : ns.filter (fun l => l.AllocationSource == "Shortage") = [] :=
      List.filter_eq_nil_iff.mpr (fun a ha => by
        simp only [beq_iff_eq]
        exact fun h => hnsrc a ha h)
    have h2 : (if 0 < rem then [shortageLine p rem] else []).filter
        (fun l => l.AllocationSource == "Shortage")
        = (if 0 < rem then [shortageLine p rem] else []) := by
      split_ifs <;> simp [shortageLine]
    rw [h1, h2, List.nil_append]
  refine ⟨?_, ?_, ?_⟩
  · rw [hlines, hshape, qtySum_append]
    have : qtySum ns = o.QtyRequired - rem := hsum
    split_ifs with hrem
    · simp only [qtySum, List.map_cons, List.map_nil, List.sum_cons, List.sum_nil] at this ⊢
      simp [shortageLine]
      linarith [this]
    · have hrem0 : rem = 0 := le_antisymm (not_lt.mp hrem) h0
      simp only [qtySum, List.map_nil, List.sum_nil] at this ⊢
      rw [hrem0] at this
      simp at this ⊢
      linarith [this]
  · intro hcover
    rw [hproper, hsum] at hcover
    have hrem : 0 < rem := by linarith
    rw [hshort, if_pos hrem, hproper, hsum]
    have : o.QtyRequired - (o.QtyRequired - rem) = rem := by ring
    rw [this]
  · intro hcover
    rw [hproper, hsum] at hcover
    have hrem : rem = 0 := by linarith
    rw [hshort, hrem]
    simp

theorem claim_C3_witness :
    qtySum (linesFor (final_allocation [⟨"P2", 10⟩]
        [⟨"P2", "A", 5, 4⟩, ⟨"P2", "B", 6, 4⟩] []) "P2") = 10
    ∧ (qtySum (properLines (linesFor (final_allocation [⟨"P2", 10⟩]
        [⟨"P2", "A", 5, 4⟩, ⟨"P2", "B", 6, 4⟩] []) "P2")) < 10 →
        shortageLines (linesFor (final_allocation [⟨"P2", 10⟩]
          [⟨"P2", "A", 5, 4⟩, ⟨"P2", "B", 6, 4⟩] []) "P2")
          = [shortageLine "P2" (10
              - qtySum (properLines (linesFor (final_allocation [⟨"P2", 10⟩]
                  [⟨"P2", "A", 5, 4⟩, ⟨"P2", "B", 6, 4⟩] []) "P2")))])
    ∧ (qtySum (properLines (linesFor (final_allocation [⟨"P2", 10⟩]
        [⟨"P2", "A", 5, 4⟩, ⟨"P2", "B", 6, 4⟩] []) "P2")) = 10 →
        shortageLines (linesFor (final_allocation [⟨"P2", 10⟩]
          [⟨"P2", "A", 5, 4⟩, ⟨"P2", "B", 6, 4⟩] []) "P2") = []) :=
  claim_C3 [⟨"P2", 10⟩] [⟨"P2", "A", 5, 4⟩, ⟨"P2", "B", 6, 4⟩] [] "P2" ⟨"P2", 10⟩
    (by decide) (by decide) (by norm_num)
    (by intro q hq; fin_cases hq <;> norm_num) (by decide)

/-! ## Claim C1: a pin whose supplier has no offer is NOT ignored -/

/-- C1 counterexample: part `P6` is pinned to supplier `X`, which has no
offer for `P6`, while supplier `A` offers plenty.  The claim says the pin is
ignored and the full auto-allocation runs; the code instead allocates
nothing and emits a single full-quantity shortage line, so the pinned and
unpinned runs differ. -/
theorem claim_C1_counterexample :
    final_allocation [⟨"P6", 10⟩] [⟨"P6", "A", 1, 10⟩] [("P6", "X")]
      ≠ final_allocation [⟨"P6", 10⟩] [⟨"P6", "A", 1, 10⟩] []
    ∧ final_allocation [⟨"P6", 10⟩] [⟨"P6", "A", 1, 10⟩] [("P6", "X")]
      = [shortageLine "P6" 10]
    ∧ final_allocation [⟨"P6", 10⟩] [⟨"P6", "A", 1, 10⟩] []
      = [⟨"P6", "A", 10, 1, 10, "Auto-Optimized"⟩] := by
  refine ⟨?_, ?_, ?_⟩ <;>
    simp +decide [final_allocation, partBlock, allocatePart, uniqueKeys, uniqueKeysAux,
      lookupSel, sortByUnitPrice, List.insertionSort, List.orderedInsert, autoLoop,
      remainingLoop, shortageLine, List.filter_cons, List.find?]

/-- C1 amended: for every part pinned to a supplier with no offer for that
part, the consolidated allocation for that part is a single Shortage line
carrying the full required quantity — the generator neither honors the pin
nor falls back to auto-allocation over the existing offers. -/
theorem claim_C1_amended (orders : List OrderRow) (quotes : List QuoteRow)
    (sels : List (String × String)) (p sel : String) (o : OrderRow)
    (hp : p ∈ orders.map (fun r => r.PartNumber))
    (hfind : orders.find? (fun r => r.PartNumber == p) = some o)
    (hsel : lookupSel sels p = some sel)
    (hpq : quotes.filter (fun q => q.PartNumber == p && q.Supplier == sel) = [])
    (hqty : 0 < o.QtyRequired) :
    (final_allocation orders quotes sels).filter (fun l => l.PartNumber == p)
      = [shortageLine p o.QtyRequired] := by
  rw [final_allocation_filter _ _ _ _ hp]
  unfold partBlock
  rw [hfind]
  show allocatePart quotes sels p o.QtyRequired = _
  rw [allocatePart_pinNoOffer _ _ _ _ _ hsel hpq, if_pos hqty]

theorem claim_C1_amended_witness :
    (final_allocation [⟨"P6", 10⟩] [⟨"P6", "A", 1, 10⟩] [("P6", "X")]).filter
        (fun l => l.PartNumber == "P6")
      = [shortageLine "P6" 10] :=
  claim_C1_amended [⟨"P6", 10⟩] [⟨"P6", "A", 1, 10⟩] [("P6", "X")] "P6" "X"
    ⟨"P6", 10⟩ (by decide) (by decide) (by decide) (by decide) (by norm_num)

/-! ## Claim C2: a part with no offers gets a Shortage line, not Not Available -/

/-- C2 counterexample: part `P5` has no offers at all.  The claim says the
consolidated allocation holds one line with the `NOT AVAILABLE` sentinel,
zero quantity and source `Not Available`; the generated list instead holds
one `N/A (SHORTAGE)` line with the full quantity and source `Shortage` —
no line has source `Not Available` or zero quantity. -/
theorem claim_C2_counterexample :
    final_allocation [⟨"P5", 5⟩] [] [] = [shortageLine "P5" 5]
    ∧ (final_allocation [⟨"P5", 5⟩] [] []).filter
        (fun l => l.AllocationSource == "Not Available") = []
    ∧ (final_allocation [⟨"P5", 5⟩] [] []).filter (fun l => l.QtyAllocated == 0) = [] := by
  refine ⟨?_, ?_, ?_⟩ <;>
    simp +decide [final_allocation, partBlock, allocatePart, uniqueKeys, uniqueKeysAux,
      lookupSel, sortByUnitPrice, List.insertionSort, List.orderedInsert, autoLoop,
      remainingLoop, shortageLine, List.filter_cons, List.find?]

/-- C2 amended: for every ordered part with zero matching quote offers, the
consolidated allocation contains exactly one line for that part: the
`N/A (SHORTAGE)` sentinel with `QtyAllocated` equal to the full required
quantity, `UnitPrice` zero and source `Shortage` (whether or not the part
is pinned). -/
theorem claim_C2_amended (orders : List OrderRow) (quotes : List QuoteRow)
    (sels : List (String × String)) (p : String) (o : OrderRow)
    (hp : p ∈ orders.map (fun r => r.PartNumber))
    (hfind : orders.find? (fun r => r.PartNumber == p) = some o)
    (hnq : quotes.filter (fun q => q.PartNumber == p) = [])
    (hqty : 0 < o.QtyRequired) :
    (final_allocation orders quotes sels).filter (fun l => l.PartNumber == p)
      = [shortageLine p o.QtyRequired] := by
  rw [final_allocation_filter _ _ _ _ hp]
  unfold partBlock
  rw [hfind]
  show allocatePart quotes sels p o.QtyRequired = _
  rw [List.filter_eq_nil_iff] at hnq
  rcases hsel : lookupSel sels p with _ | sel
  · rw [allocatePart_noPin _ _ _ _ hsel]
    have hfil : quotes.filter (fun q => q.PartNumber == p) = [] :=
      List.filter_eq_nil_iff.mpr hnq
    rw [hfil]
    simp [sortByUnitPrice, List.insertionSort, autoLoop, hqty]
  · have hpq : quotes.filter (fun q => q.PartNumber == p && q.Supplier == sel) = [] := by
      rw [List.filter_eq_nil_iff]
      intro q hq
      simp only [Bool.and_eq_true, not_and]
      intro h _
      exact hnq q hq h
    rw [allocatePart_pinNoOffer _ _ _ _ _ hsel hpq, if_pos hqty]

theorem claim_C2_amended_witness :
    (final_allocation [⟨"P5", 5⟩] [] []).filter (fun l => l.PartNumber == "P5")
      = [shortageLine "P5" 5] :=
  claim_C2_amended [⟨"P5", 5⟩] [] [] "P5" ⟨"P5", 5⟩ (by decide) (by decide)
    (by decide) (by norm_num)

/-! ## Claim C9: regenerating with unchanged inputs reproduces the list -/

/-- C9: clicking the generate button twice with the same orders, quotes and
selections stores the same allocation list line for line: the second run
depends only on those inputs, never on the previously stored list, and fully
replaces it. -/
theorem claim_C9 (orders : List OrderRow) (quotes : List QuoteRow) (st : SessionState) :
    (generateFinalAllocation orders quotes
        (generateFinalAllocation orders quotes st)).final_allocation
      = (generateFinalAllocation orders quotes st).final_allocation := rfl

/-! ## Claim C10: duplicate order rows of one part are ignored after the first -/

/-- Concatenating over a key list is determined by pointwise behavior. -/
theorem flatMap_congr_mem {α β : Type} (l : List α) (f g : α → List β)
    (h : ∀ a ∈ l, f a = g a) : l.flatMap f = l.flatMap g := by
  induction l with
  | nil => rfl
  | cons a t ih =>
    rw [List.flatMap_cons, List.flatMap_cons, h a (List.mem_cons_self _ _),
      ih (fun b hb => h b (List.mem_cons_of_mem _ hb))]

/-- Dropping later duplicate rows and then projecting the part column is
the same as removing duplicates from the part column. -/
theorem firstOrderRowsAux_map (seen : List String) (l : List OrderRow) :
    (firstOrderRowsAux seen l).map (fun o => o.PartNumber)
      = uniqueKeysAux seen (l.map (fun o => o.PartNumber)) := by
  induction l generalizing seen with
  | nil => simp [firstOrderRowsAux, uniqueKeysAux]
  | cons o rest ih =>
    simp only [firstOrderRowsAux, List.map_cons, uniqueKeysAux]
    split_ifs with h
    · exact ih seen
    · rw [List.map_cons, ih (o.PartNumber :: seen)]

/-- On a duplicate-free column disjoint from the seen set, removing
duplicates changes nothing. -/
theorem uniqueKeysAux_eq_self (seen l : List String) (hnd : l.Nodup)
    (hdisj : ∀ x ∈ l, x ∉ seen) : uniqueKeysAux seen l = l := by
  induction l generalizing seen with
  | nil => simp [uniqueKeysAux]
  | cons p rest ih =>
    have hps : p ∉ seen := hdisj p (List.mem_cons_self _ _)
    simp only [uniqueKeysAux, if_neg hps]
    congr 1
    apply ih (p :: seen) (List.nodup_cons.mp hnd).2
    intro x hx
    rw [List.mem_cons]
    push_neg
    exact ⟨fun hxp => (List.nodup_cons.mp hnd).1 (hxp ▸ hx),
      hdisj x (List.mem_cons_of_mem _ hx)⟩

/-- The first-row lookup of any part sees through the dedup of the order
rows. -/
theorem firstOrderRowsAux_find? (seen : List String) (l : List OrderRow) (k : String)
    (hk : k ∉ seen) :
    (firstOrderRowsAux seen l).find? (fun r => r.PartNumber == k)
      = l.find? (fun r => r.PartNumber == k) := by
  induction l generalizing seen with
  | nil => simp [firstOrderRowsAux]
  | cons o rest ih =>
    simp only [firstOrderRowsAux]
    split_ifs with h
    · have hok : (o.PartNumber == k) = false := by
        rw [beq_eq_false_iff_ne]
        exact fun hek => hk (hek ▸ h)
      rw [List.find?_cons, hok, ih seen hk]
    · rw [List.find?_cons, List.find?_cons]
      rcases hok : (o.PartNumber == k) with _ | _
      · rw [ih (o.PartNumber :: seen)]
        rw [List.mem_cons]
        push_neg
        exact ⟨fun hek => by
          rw [beq_eq_false_iff_ne] at hok
          exact hok hek.symm, hk⟩
      · rfl

theorem firstOrderRows_find? (l : List OrderRow) (k : String) :
    (firstOrderRows l).find? (fun r => r.PartNumber == k)
      = l.find? (fun r => r.PartNumber == k) :=
  firstOrderRowsAux_find? [] l k (by simp)

/-- C10: the generator allocates each ordered part exactly once, from the
first order row carrying that part number: dropping every later duplicate
row — wherever it sits in the list — leaves the allocation list unchanged,
and the lines of a part are the single block computed from the first
matching row's required quantity. -/
theorem claim_C10 (orders : List OrderRow) (quotes : List QuoteRow)
    (sels : List (String × String)) (p : String) (o : OrderRow)
    (hfind : orders.find? (fun r => r.PartNumber == p) = some o) :
    final_allocation orders quotes sels
      = final_allocation (firstOrderRows orders) quotes sels
    ∧ linesFor (final_allocation orders quotes sels) p
      = allocatePart quotes sels p o.QtyRequired := by
  constructor
  · unfold final_allocation
    have hkeys : uniqueKeys ((firstOrderRows orders).map (fun r => r.PartNumber))
        = uniqueKeys (orders.map (fun r => r.PartNumber)) := by
      rw [show (firstOrderRows orders).map (fun r => r.PartNumber)
          = uniqueKeys (orders.map (fun r => r.PartNumber))
          from firstOrderRowsAux_map [] orders]
      exact uniqueKeysAux_eq_self [] _ (uniqueKeys_nodup _) (by simp)
    rw [hkeys]
    apply flatMap_congr_mem
    intro k _
    unfold partBlock
    rw [firstOrderRows_find?]
  · have ho : o ∈ orders := List.mem_of_find?_eq_some hfind
    have hpo : o.PartNumber = p := by
      have := List.find?_some hfind
      simpa using this
    have hp : p ∈ orders.map (fun r => r.PartNumber) := List.mem_map.mpr ⟨o, ho, hpo⟩
    unfold linesFor
    rw [final_allocation_filter _ _ _ _ hp]
    unfold partBlock
    rw [hfind]

theorem claim_C10_witness :
    (final_allocation [⟨"P", 3⟩, ⟨"P", 99⟩, ⟨"Q", 2⟩]
        [⟨"P", "A", 1, 5⟩, ⟨"Q", "B", 2, 2⟩] []
      = final_allocation (firstOrderRows [⟨"P", 3⟩, ⟨"P", 99⟩, ⟨"Q", 2⟩])
        [⟨"P", "A", 1, 5⟩, ⟨"Q", "B", 2, 2⟩] [])
    ∧ linesFor (final_allocation [⟨"P", 3⟩, ⟨"P", 99⟩, ⟨"Q", 2⟩]
        [⟨"P", "A", 1, 5⟩, ⟨"Q", "B", 2, 2⟩] []) "P"
      = allocatePart [⟨"P", "A", 1, 5⟩, ⟨"Q", "B", 2, 2⟩] [] "P" 3 :=
  claim_C10 [⟨"P", 3⟩, ⟨"P", 99⟩, ⟨"Q", 2⟩] [⟨"P", "A", 1, 5⟩, ⟨"Q", "B", 2, 2⟩] []
    "P" ⟨"P", 3⟩ (by decide)

/-! ## Claim C7: per-supplier caps -/

theorem sum_avail_nonneg (l : List QuoteRow) (h : ∀ q ∈ l, 0 ≤ q.AvailableQty) :
    0 ≤ (l.map (fun q => q.AvailableQty)).sum := by
  apply List.sum_nonneg
  intro x hx
  obtain ⟨q, hq, hqx⟩ := List.mem_map.mp hx
  exact hqx ▸ h q hq

/-- Weakening the row filter can only grow the total availability. -/
theorem sum_filter_le_of_imp (l : List QuoteRow) (P Q : QuoteRow → Bool)
    (himp : ∀ x ∈ l, P x = true → Q x = true)
    (hpos : ∀ x ∈ l, 0 ≤ x.AvailableQty) :
    ((l.filter P).map (fun q => q.AvailableQty)).sum
      ≤ ((l.filter Q).map (fun q => q.AvailableQty)).sum := by
  induction l with
  | nil => simp
  | cons x t ih =>
    have ih' := ih (fun y hy => himp y (List.mem_cons_of_mem _ hy))
      (fun y hy => hpos y (List.mem_cons_of_mem _ hy))
    rcases hP : P x with _ | _
    · rcases hQ : Q x with _ | _
      · simpa [List.filter_cons, hP, hQ] using ih'
      · simp only [List.filter_cons, hP, hQ]
        simp only [Bool.false_eq_true, if_false, if_true, List.map_cons, List.sum_cons]
        have := hpos x (List.mem_cons_self _ _)
        linarith
    · have hQ : Q x = true := himp x (List.mem_cons_self _ _) hP
      simp only [List.filter_cons, hP, hQ, if_true, List.map_cons, List.sum_cons]
      linarith

theorem sortByUnitPrice_filter_sum (qs : List QuoteRow) (f : QuoteRow → Bool) :
    (((sortByUnitPrice qs).filter f).map (fun q => q.AvailableQty)).sum
      = ((qs.filter f).map (fun q => q.AvailableQty)).sum :=
  (((List.perm_insertionSort _ qs).filter f).map (fun q => q.AvailableQty)).sum_eq

/-- Dropping the shortage suffix from a block of offer-backed lines. -/
theorem properLines_append_short (ls : List AllocationLine) (p : String) (r : ℚ)
    (hsrc : ∀ l ∈ ls, l.AllocationSource ≠ "Shortage") :
    properLines (ls ++ (if 0 < r then [shortageLine p r] else [])) = ls := by
  unfold properLines
  rw [List.filter_append]
  have h1 : ls.filter (fun l => l.AllocationSource != "Shortage") = ls :=
    List.filter_eq_self.mpr (fun a ha => bne_iff_ne.mpr (hsrc a ha))
  have h2 : (if 0 < r then [shortageLine p r] else []).filter
      (fun l => l.AllocationSource != "Shortage") = [] := by
    split_ifs <;> simp [shortageLine]
  rw [h1, h2, List.append_nil]

theorem ite_append_short (c : Prop) [Decidable c] (ls : List AllocationLine)
    (x : AllocationLine) :
    (if c then ls ++ [x] else ls) = ls ++ (if c then [x] else []) := by
  split_ifs <;> simp

/-- The auto loop never hands a supplier more than the total availability of
that supplier's rows in the walked list. -/
theorem autoLoop_supplier_cap (part : String) (n : ℚ) (qs : List QuoteRow) (s : String)
    (hq : ∀ q ∈ qs, 0 ≤ q.AvailableQty) :
    qtySum ((autoLoop part n qs).1.filter (fun l => l.Supplier == s))
      ≤ ((qs.filter (fun q => q.Supplier == s)).map (fun q => q.AvailableQty)).sum := by
  induction qs generalizing n with
  | nil => simp [autoLoop, qtySum]
  | cons q rest ih =>
    have ih' := fun m => ih m (fun y hy => hq y (List.mem_cons_of_mem _ hy))
    simp only [autoLoop]
    split_ifs with h1 h2
    · have : 0 ≤ ((List.filter (fun r => r.Supplier == s)
          (q :: rest)).map (fun r => r.AvailableQty)).sum :=
        sum_avail_nonneg _ (fun y hy => hq y (List.mem_of_mem_filter hy))
      simpa [qtySum] using this
    · rcases hs : (q.Supplier == s) with _ | _
      · simpa [List.filter_cons, hs, qtySum] using ih' (n - min n q.AvailableQty)
      · have hmin : min n q.AvailableQty ≤ q.AvailableQty := min_le_right _ _
        have := ih' (n - min n q.AvailableQty)
        simp only [List.filter_cons, hs, if_true, qtySum, List.map_cons,
          List.sum_cons] at this ⊢
        linarith
    · rcases hs : (q.Supplier == s) with _ | _
      · simpa [List.filter_cons, hs, qtySum] using ih' n
      · have hq0 := hq q (List.mem_cons_self _ _)
        have := ih' n
        simp only [List.filter_cons, hs, if_true, qtySum, List.map_cons,
          List.sum_cons] at this ⊢
        linarith

/-- Same cap for the remaining-quantity loop. -/
theorem remainingLoop_supplier_cap (part : String) (n : ℚ) (qs : List QuoteRow)
    (s : String) (hq : ∀ q ∈ qs, 0 ≤ q.AvailableQty) :
    qtySum ((remainingLoop part n qs).1.filter (fun l => l.Supplier == s))
      ≤ ((qs.filter (fun q => q.Supplier == s)).map (fun q => q.AvailableQty)).sum := by
  induction qs generalizing n with
  | nil => simp [remainingLoop, qtySum]
  | cons q rest ih =>
    have ih' := fun m => ih m (fun y hy => hq y (List.mem_cons_of_mem _ hy))
    simp only [remainingLoop]
    split_ifs with h1
    · have : 0 ≤ ((List.filter (fun r => r.Supplier == s)
          (q :: rest)).map (fun r => r.AvailableQty)).sum :=
        sum_avail_nonneg _ (fun y hy => hq y (List.mem_of_mem_filter hy))
      simpa [qtySum] using this
    · rcases hs : (q.Supplier == s) with _ | _
      · simpa [List.filter_cons, hs, qtySum] using ih' (n - min n q.AvailableQty)
      · have hmin : min n q.AvailableQty ≤ q.AvailableQty := min_le_right _ _
        have := ih' (n - min n q.AvailableQty)
        simp only [List.filter_cons, hs, if_true, qtySum, List.map_cons,
          List.sum_cons] at this ⊢
        linarith

/-- Every line the remaining loop emits carries the supplier of one of the
rows it walked. -/
theorem remainingLoop_supplier (part : String) (n : ℚ) (qs : List QuoteRow) :
    ∀ l ∈ (remainingLoop part n qs).1, ∃ q ∈ qs, l.Supplier = q.Supplier := by
  induction qs generalizing n with
  | nil => intro l hl; simp [remainingLoop] at hl
  | cons q rest ih =>
    intro l hl
    simp only [remainingLoop] at hl
    split_ifs at hl with h1
    · simp at hl
    · rcases List.mem_cons.mp hl with h | h
      · exact ⟨q, List.mem_cons_self _ _, by rw [h]⟩
      · obtain ⟨q', hq', hs⟩ := ih _ l h
        exact ⟨q', List.mem_cons_of_mem _ hq', hs⟩

/-- Per-part, per-supplier cap at the level of one generator block. -/
theorem allocatePart_supplier_cap (quotes : List QuoteRow)
    (sels : List (String × String)) (p : String) (n : ℚ) (s : String)
    (hq : ∀ q ∈ quotes, 0 ≤ q.AvailableQty) :
    qtySum ((properLines (allocatePart quotes sels p n)).filter (fun l => l.Supplier == s))
      ≤ ((quotes.filter (fun q => q.PartNumber == p && q.Supplier == s)).map
          (fun q => q.AvailableQty)).sum := by
  have hrhs0 : 0 ≤ ((quotes.filter (fun q => q.PartNumber == p && q.Supplier == s)).map
      (fun q => q.AvailableQty)).sum :=
    sum_avail_nonneg _ (fun y hy => hq y (List.mem_of_mem_filter hy))
  rcases hsel : lookupSel sels p with _ | sel
  · rw [allocatePart_noPin _ _ _ _ hsel, ite_append_short,
      properLines_append_short _ _ _
        (fun l hl => by rw [autoLoop_source _ _ _ l hl]; simp)]
    have hsorted0 : ∀ q ∈ sortByUnitPrice (quotes.filter (fun q => q.PartNumber == p)),
        0 ≤ q.AvailableQty :=
      fun q hq' => hq q (List.mem_of_mem_filter ((mem_sortByUnitPrice _ _).mp hq'))
    refine le_trans (autoLoop_supplier_cap p n _ s hsorted0) (le_of_eq ?_)
    rw [sortByUnitPrice_filter_sum, List.filter_filter]
    congr 1
    congr 1
    apply List.filter_congr
    intro x _
    rw [Bool.and_comm]
  · rcases hpq : quotes.filter (fun q => q.PartNumber == p && q.Supplier == sel)
      with _ | ⟨sq, tl⟩
    · rw [allocatePart_pinNoOffer _ _ _ _ _ hsel hpq]
      have hempty : properLines (if 0 < n then [shortageLine p n] else []) = [] := by
        split_ifs <;> simp [properLines, shortageLine]
      rw [hempty]
      simpa [qtySum] using hrhs0
    · have htl0 : ∀ y ∈ tl, 0 ≤ y.AvailableQty := fun y hy =>
        hq y (List.mem_of_mem_filter (hpq ▸ List.mem_cons_of_mem sq hy))
      by_cases hge : sq.AvailableQty ≥ n
      · rw [allocatePart_pinFull _ _ _ _ _ _ _ hsel hpq hge]
        have hprop : properLines [(⟨p, sel, n, sq.UnitPrice, n * sq.UnitPrice,
            "Manual Selection"⟩ : AllocationLine)]
            = [⟨p, sel, n, sq.UnitPrice, n * sq.UnitPrice, "Manual Selection"⟩] := by
          simp [properLines]
        rw [hprop]
        rcases hs : (sel == s) with _ | _
        · simp only [List.filter_cons, List.filter_nil]
          rw [show ((⟨p, sel, n, sq.UnitPrice, n * sq.UnitPrice,
            "Manual Selection"⟩ : AllocationLine).Supplier == s) = false from hs]
          simpa [qtySum] using hrhs0
        · have hsels : sel = s := beq_iff_eq.mp hs
          subst hsels
          rw [hpq]
          simp only [List.filter_cons, List.filter_nil]
          rw [show ((⟨p, sel, n, sq.UnitPrice, n * sq.UnitPrice,
            "Manual Selection"⟩ : AllocationLine).Supplier == sel) = true
            from beq_self_eq_true sel]
          simp only [if_true, qtySum, List.map_cons, List.map_nil, List.sum_cons,
            List.sum_nil]
          have h2 : 0 ≤ (tl.map (fun q => q.AvailableQty)).sum := sum_avail_nonneg _ htl0
          linarith [hge]
      · rw [allocatePart_pinPart _ _ _ _ _ _ _ hsel hpq hge,
          show ∀ (x : AllocationLine) (A B : List AllocationLine),
            x :: (A ++ B) = (x :: A) ++ B from fun x A B => (List.cons_append x A B).symm,
          properLines_append_short _ _ _ ?hsrc]
        case hsrc =>
          intro l hl
          rcases List.mem_cons.mp hl with h | h
          · rw [h]; simp
          · rw [remainingLoop_source _ _ _ l h]; simp
        have hsorted0 : ∀ q ∈ sortByUnitPrice (quotes.filter (fun q =>
            q.PartNumber == p && q.Supplier != sel && decide (0 < q.AvailableQty))),
            0 ≤ q.AvailableQty :=
          fun q hq' => hq q (List.mem_of_mem_filter ((mem_sortByUnitPrice _ _).mp hq'))
        rcases hs : (sel == s) with _ | _
        · simp only [List.filter_cons]
          rw [show ((⟨p, sel, sq.AvailableQty, sq.UnitPrice,
            sq.AvailableQty * sq.UnitPrice,
            "Manual Selection (Partial)"⟩ : AllocationLine).Supplier == s) = false from hs]
          simp only [Bool.false_eq_true, if_false]
          refine le_trans (remainingLoop_supplier_cap p (n - sq.AvailableQty) _ s hsorted0) ?_
          rw [sortByUnitPrice_filter_sum, List.filter_filter]
          apply sum_filter_le_of_imp _ _ _ _ hq
          intro x _ hx
          simp only [Bool.and_eq_true] at hx ⊢
          exact ⟨hx.2.1.1, hx.1⟩
        · have hsels : sel = s := beq_iff_eq.mp hs
          subst hsels
          have hRf : ((remainingLoop p (n - sq.AvailableQty) (sortByUnitPrice
              (quotes.filter (fun q => q.PartNumber == p && q.Supplier != sel &&
                decide (0 < q.AvailableQty))))).1.filter
              (fun l => l.Supplier == sel)) = [] := by
            apply List.filter_eq_nil_iff.mpr
            intro a ha
            obtain ⟨q', hq', hsup⟩ := remainingLoop_supplier _ _ _ a ha
            have hq'' := (List.mem_filter.mp ((mem_sortByUnitPrice _ _).mp hq')).2
            simp only [Bool.and_eq_true] at hq''
            have hne : q'.Supplier ≠ sel := bne_iff_ne.mp hq''.1.2
            rw [beq_iff_eq, hsup]
            exact hne
          simp only [List.filter_cons]
          rw [show ((⟨p, sel, sq.AvailableQty, sq.UnitPrice,
            sq.AvailableQty * sq.UnitPrice,
            "Manual Selection (Partial)"⟩ : AllocationLine).Supplier == sel) = true
            from beq_self_eq_true sel]
          simp only [if_true]
          rw [qtySum_cons, hRf, hpq]
          simp only [qtySum, List.map_nil, List.sum_nil, List.map_cons, List.sum_cons]
          have h2 : 0 ≤ (tl.map (fun q => q.AvailableQty)).sum := sum_avail_nonneg _ htl0
          linarith

/-- A part that never appears in the order list has no lines at all. -/
theorem final_allocation_filter_not_mem (orders : List OrderRow) (quotes : List QuoteRow)
    (sels : List (String × String)) (p : String)
    (hp : p ∉ orders.map (fun o => o.PartNumber)) :
    (final_allocation orders quotes sels).filter (fun l => l.PartNumber == p) = [] := by
  unfold final_allocation
  rw [List.filter_flatMap]
  apply List.flatMap_eq_nil_iff.mpr
  intro k hk
  apply List.filter_eq_nil_iff.mpr
  intro a ha
  rw [beq_iff_eq, partBlock_partNumber _ _ _ _ a ha]
  intro hkp
  exact hp (hkp ▸ (mem_uniqueKeys _ _).mp hk)

/-- C7 counterexample: two duplicate offers `(P, A)`, each with availability
5 at price 1, and a demand of 10.  The auto path walks both rows and hands
supplier `A` a total of 10 — more than the availability 5 of the first
(claimed authoritative) offer, which the claim says is never exceeded. -/
theorem claim_C7_counterexample :
    qtySum ((properLines (linesFor (final_allocation [⟨"P", 10⟩]
        [⟨"P", "A", 1, 5⟩, ⟨"P", "A", 1, 5⟩] []) "P")).filter
        (fun l => l.Supplier == "A")) = 10
    ∧ (List.filter (fun q => q.PartNumber == "P" && q.Supplier == "A")
        ([⟨"P", "A", 1, 5⟩, ⟨"P", "A", 1, 5⟩] : List QuoteRow)).head?.map
        (fun q => q.AvailableQty) = some 5
    ∧ ¬ ((10 : ℚ) ≤ 5) := by
  refine ⟨?_, by decide, by norm_num⟩
  norm_num [final_allocation, partBlock, allocatePart, uniqueKeys, uniqueKeysAux,
    lookupSel, sortByUnitPrice, List.insertionSort, List.orderedInsert, autoLoop,
    remainingLoop, shortageLine, linesFor, properLines, qtySum, List.filter_cons,
    List.find?, min_def]
  simp +decide [List.filter_cons]
  norm_num

/-- C7 amended: every offer-backed allocation line stays within its own
offer row, so for every (part, supplier) pair the total quantity given to
that supplier never exceeds the SUM of that supplier's offered availability
over all of its rows for the part.  Duplicate (part, supplier) rows each
contribute their own capacity in the auto path; only the pinned-supplier
lookup treats the first matching row as authoritative. -/
theorem claim_C7_amended (orders : List OrderRow) (quotes : List QuoteRow)
    (sels : List (String × String)) (p s : String)
    (hq : ∀ q ∈ quotes, 0 ≤ q.AvailableQty) :
    qtySum ((properLines (linesFor (final_allocation orders quotes sels) p)).filter
        (fun l => l.Supplier == s))
      ≤ ((quotes.filter (fun q => q.PartNumber == p && q.Supplier == s)).map
          (fun q => q.AvailableQty)).sum := by
  by_cases hp : p ∈ orders.map (fun r => r.PartNumber)
  · have hsome : (orders.find? (fun o => o.PartNumber == p)).isSome := by
      rw [List.find?_isSome]
      obtain ⟨o, ho, hpo⟩ := List.mem_map.mp hp
      exact ⟨o, ho, beq_iff_eq.mpr hpo⟩
    obtain ⟨o, ho⟩ := Option.isSome_iff_exists.mp hsome
    have hlines : linesFor (final_allocation orders quotes sels) p
        = allocatePart quotes sels p o.QtyRequired := by
      unfold linesFor
      rw [final_allocation_filter _ _ _ _ hp]
      unfold partBlock
      rw [ho]
    rw [hlines]
    exact allocatePart_supplier_cap quotes sels p o.QtyRequired s hq
  · have hnone : linesFor (final_allocation orders quotes sels) p = [] :=
      final_allocation_filter_not_mem orders quotes sels p hp
    rw [hnone]
    simpa [properLines, qtySum] using
      sum_avail_nonneg _ (fun y hy => hq y (List.mem_of_mem_filter hy))

theorem claim_C7_amended_witness :
    qtySum ((properLines (linesFor (final_allocation [⟨"P", 10⟩]
        [⟨"P", "A", 1, 5⟩, ⟨"P", "A", 1, 5⟩] []) "P")).filter
        (fun l => l.Supplier == "A"))
      ≤ ((List.filter (fun q => q.PartNumber == "P" && q.Supplier == "A")
          ([⟨"P", "A", 1, 5⟩, ⟨"P", "A", 1, 5⟩] : List QuoteRow)).map
          (fun q => q.AvailableQty)).sum :=
  claim_C7_amended [⟨"P", 10⟩] [⟨"P", "A", 1, 5⟩, ⟨"P", "A", 1, 5⟩] [] "P" "A"
    (by intro q hq; fin_cases hq <;> norm_num)

/-! ## Claim C4: greedy cost minimality machinery -/

theorem autoLoop_zero (part : String) (qs : List QuoteRow) :
    autoLoop part 0 qs = ([], 0) := by
  cases qs <;> simp [autoLoop]

/-- The allocated total is monotone in the demand. -/
theorem autoLoop_alloc_mono (part : String) (qs : List QuoteRow) (a b : ℚ)
    (h0 : 0 ≤ a) (hab : a ≤ b) :
    a - (autoLoop part a qs).2 ≤ b - (autoLoop part b qs).2 := by
  induction qs generalizing a b with
  | nil => simp [autoLoop]
  | cons q rest ih =>
    by_cases h1 : a ≤ 0
    · have ha0 : a = 0 := le_antisymm h1 h0
      subst ha0
      rw [autoLoop_zero]
      have hb := autoLoop_rem_bounds part b (q :: rest) (by linarith)
      simp
      linarith [hb.2]
    · have h2 : ¬ b ≤ 0 := by linarith
      simp only [autoLoop, if_neg h1, if_neg h2]
      by_cases hp : 0 < min a q.AvailableQty
      · have hp' : 0 < min b q.AvailableQty :=
          lt_of_lt_of_le hp (min_le_min hab (le_refl _))
      -- hmm min_le_min : a ≤ b → c ≤ d → min a c ≤ min b d
        rw [if_pos hp, if_pos hp']
        have hmono : min a q.AvailableQty ≤ min b q.AvailableQty :=
          min_le_min hab (le_refl _)
        have hlip : min b q.AvailableQty - min a q.AvailableQty ≤ b - a := by
          rcases le_total a q.AvailableQty with h | h
          · rw [min_eq_left h]
            rcases le_total b q.AvailableQty with h' | h'
            · rw [min_eq_left h']
            · rw [min_eq_right h']
              linarith
          · rw [min_eq_right h]
            rcases le_total b q.AvailableQty with h' | h'
            · rw [min_eq_left h']
              linarith
            · rw [min_eq_right h']
              linarith
        have ihs := ih (a - min a q.AvailableQty) (b - min b q.AvailableQty)
          (by linarith [min_le_left a q.AvailableQty]) (by linarith)
        simpa using by linarith [ihs]
      · have hp' : ¬ 0 < min b q.AvailableQty := by
          intro hcon
          have hq0 : 0 < q.AvailableQty := lt_of_lt_of_le hcon (min_le_right _ _)
          have : 0 < min a q.AvailableQty := lt_min (lt_of_not_le h1) hq0
          exact hp this
        rw [if_neg hp, if_neg hp']
        exact ih a b h0 hab

/-- When the demand fits inside total availability, the loop covers it
fully. -/
theorem autoLoop_full (part : String) (qs : List QuoteRow) (m : ℚ)
    (hav : ∀ q ∈ qs, 0 ≤ q.AvailableQty) (h0 : 0 ≤ m)
    (hle : m ≤ (qs.map (fun q => q.AvailableQty)).sum) :
    (autoLoop part m qs).2 = 0 := by
  induction qs generalizing m with
  | nil =>
    simp only [List.map_nil, List.sum_nil] at hle
    have : m = 0 := le_antisymm hle h0
    simp [autoLoop, this]
  | cons q rest ih =>
    have hav' : ∀ r ∈ rest, 0 ≤ r.AvailableQty :=
      fun r hr => hav r (List.mem_cons_of_mem _ hr)
    have hrest0 : 0 ≤ (rest.map (fun q => q.AvailableQty)).sum := sum_avail_nonneg _ hav'
    by_cases h1 : m ≤ 0
    · have : m = 0 := le_antisymm h1 h0
      subst this
      rw [autoLoop_zero]
    · simp only [autoLoop, if_neg h1]
      simp only [List.map_cons, List.sum_cons] at hle
      by_cases hp : 0 < min m q.AvailableQty
      · rw [if_pos hp]
        refine ih _ hav' (by linarith [min_le_left m q.AvailableQty]) ?_
        rcases le_total m q.AvailableQty with h | h
        · rw [min_eq_left h]
          linarith
        · rw [min_eq_right h]
          linarith
      · rw [if_neg hp]
        have hq0 : q.AvailableQty ≤ 0 := by
          by_contra hcon
          push_neg at hcon
          exact hp (lt_min (lt_of_not_le h1) hcon)
        exact ih m hav' h0 (by linarith)

/-- Rerunning the loop with demand equal to the quantity it allocated
reproduces the same lines and leaves nothing over. -/
theorem autoLoop_replay (part : String) (qs : List QuoteRow) (n : ℚ) (hn : 0 ≤ n) :
    autoLoop part (n - (autoLoop part n qs).2) qs = ((autoLoop part n qs).1, 0) := by
  induction qs generalizing n with
  | nil => simp [autoLoop]
  | cons q rest ih =>
    by_cases h1 : n ≤ 0
    · have hn0 : n = 0 := le_antisymm h1 hn
      subst hn0
      simp only [autoLoop_zero]
      simp [autoLoop_zero]
    · simp only [autoLoop, if_neg h1]
      by_cases hp : 0 < min n q.AvailableQty
      · rw [if_pos hp]
        have hb := autoLoop_rem_bounds part (n - min n q.AvailableQty) rest
          (by linarith [min_le_left n q.AvailableQty])
        set a := min n q.AvailableQty with ha
        set R := (autoLoop part (n - a) rest).2 with hR
        have hT : n - R = a + ((n - a) - R) := by ring
        have hTa : a ≤ n - R := by linarith [hb.2]
        have hTpos : ¬ (n - R ≤ 0) := by linarith
        have haq : a ≤ q.AvailableQty := min_le_right _ _
        have han : a ≤ n := min_le_left _ _
        have hTn : n - R ≤ n := by linarith [hb.1]
        have hmin : min (n - R) q.AvailableQty = a := by
          apply le_antisymm
          · calc min (n - R) q.AvailableQty ≤ min n q.AvailableQty :=
                min_le_min hTn (le_refl _)
            _ = a := rfl
          · exact le_min hTa haq
        simp only [if_neg hTpos, hmin, if_pos hp]
        have ihs := ih (n - a) (by linarith)
        have harg : n - R - a = n - a - R := by ring
        rw [harg, ihs]
    -- skip branch
      · rw [if_neg hp]
        have hb := autoLoop_rem_bounds part n rest hn
        set R := (autoLoop part n rest).2 with hR
        have ihs := ih n hn
        by_cases hT : n - R ≤ 0
        · have hT0 : n - R = 0 := le_antisymm hT (by linarith [hb.2])
          rw [hT0] at ihs ⊢
          rw [autoLoop_zero] at ihs
          rw [if_pos (le_refl (0 : ℚ))]
          exact ihs
        · have hq0 : q.AvailableQty ≤ 0 := by
            by_contra hcon
            push_neg at hcon
            exact hp (lt_min (lt_of_not_le h1) hcon)
          have hmin : ¬ 0 < min (n - R) q.AvailableQty := by
            intro hcon
            exact absurd (lt_of_lt_of_le hcon (min_le_right _ _)) (not_lt.mpr hq0)
          simp only [if_neg hT, if_neg hmin]
          exact ihs

/-- Everything the loop buys costs at least the floor price per unit. -/
theorem autoLoop_cost_lb (part : String) (qs : List QuoteRow) (pr m : ℚ)
    (hpr : ∀ q ∈ qs, pr ≤ q.UnitPrice) (hm : 0 ≤ m) :
    (m - (autoLoop part m qs).2) * pr ≤ costSum (autoLoop part m qs).1 := by
  induction qs generalizing m with
  | nil => simp [autoLoop, costSum]
  | cons q rest ih =>
    by_cases h1 : m ≤ 0
    · have : m = 0 := le_antisymm h1 hm
      subst this
      rw [autoLoop_zero]
      simp [costSum]
    · simp only [autoLoop, if_neg h1]
      by_cases hp : 0 < min m q.AvailableQty
      · rw [if_pos hp]
        set a := min m q.AvailableQty with ha
        have hpr' : ∀ r ∈ rest, pr ≤ r.UnitPrice :=
          fun r hr => hpr r (List.mem_cons_of_mem _ hr)
        have ihs := ih (m - a) hpr' (by linarith [min_le_left m q.AvailableQty])
        have hpq := hpr q (List.mem_cons_self _ _)
        have hmul : a * pr ≤ a * q.UnitPrice :=
          mul_le_mul_of_nonneg_left hpq (le_of_lt hp)
        simp only [costSum, List.map_cons, List.sum_cons] at ihs ⊢
        have hsplit : (m - (autoLoop part (m - a) rest).2) * pr
            = a * pr + (m - a - (autoLoop part (m - a) rest).2) * pr := by ring
        rw [hsplit]
        linarith
      · rw [if_neg hp]
        exact ih m (fun r hr => hpr r (List.mem_cons_of_mem _ hr)) hm

theorem min_sub_min_le (a b c : ℚ) (hab : a ≤ b) : min b c - min a c ≤ b - a := by
  rcases le_total a c with h | h
  · rw [min_eq_left h]
    rcases le_total b c with h' | h'
    · rw [min_eq_left h']
    · rw [min_eq_right h']
      linarith
  · rw [min_eq_right h]
    rcases le_total b c with h' | h'
    · rw [min_eq_left h']
      linarith
    · rw [min_eq_right h']
      linarith

/-- Raising the demand buys the extra quantity at no less than the floor
price of the remaining offers. -/
theorem autoLoop_cost_slope (part : String) (qs : List QuoteRow) (pr a b : ℚ)
    (hpr : ∀ q ∈ qs, pr ≤ q.UnitPrice) (h0 : 0 ≤ a) (hab : a ≤ b) :
    costSum (autoLoop part a qs).1
      + ((b - (autoLoop part b qs).2) - (a - (autoLoop part a qs).2)) * pr
      ≤ costSum (autoLoop part b qs).1 := by
  induction qs generalizing a b with
  | nil =>
    simp only [autoLoop, costSum, List.map_nil, List.sum_nil]
    have : (b - b - (a - a)) * pr = 0 := by ring
    linarith [this.le, this.ge]
  | cons q rest ih =>
    have hpr' : ∀ r ∈ rest, pr ≤ r.UnitPrice :=
      fun r hr => hpr r (List.mem_cons_of_mem _ hr)
    by_cases h1 : a ≤ 0
    · have ha0 : a = 0 := le_antisymm h1 h0
      subst ha0
      rw [autoLoop_zero]
      have hlb := autoLoop_cost_lb part (q :: rest) pr b hpr (by linarith)
      simp only [costSum, List.map_nil, List.sum_nil] at hlb ⊢
      have hx : (b - (autoLoop part b (q :: rest)).2 - (0 - 0)) * pr
          = (b - (autoLoop part b (q :: rest)).2) * pr := by ring
      rw [hx]
      linarith
    · have h2 : ¬ b ≤ 0 := by linarith
      simp only [autoLoop, if_neg h1, if_neg h2]
      by_cases hp : 0 < min a q.AvailableQty
      · have hq0 : 0 < q.AvailableQty := lt_of_lt_of_le hp (min_le_right _ _)
        have hpb : 0 < min b q.AvailableQty := lt_min (by linarith) hq0
        rw [if_pos hp, if_pos hpb]
        set x := min a q.AvailableQty with hxdef
        set y := min b q.AvailableQty with hydef
        have hxy : x ≤ y := min_le_min hab (le_refl _)
        have hlip : y - x ≤ b - a := min_sub_min_le a b q.AvailableQty hab
        have hxa : x ≤ a := min_le_left _ _
        have ihs := ih (a - x) (b - y) hpr' (by linarith) (by linarith)
        have hmul : (y - x) * pr ≤ (y - x) * q.UnitPrice :=
          mul_le_mul_of_nonneg_left (hpr q (List.mem_cons_self _ _)) (by linarith)
        set Ra := (autoLoop part (a - x) rest).2 with hRa
        set Rb := (autoLoop part (b - y) rest).2 with hRb
        simp only [costSum, List.map_cons, List.sum_cons] at ihs ⊢
        ring_nf at ihs hmul ⊢
        linarith
      · have hq0 : q.AvailableQty ≤ 0 := by
          by_contra hcon
          push_neg at hcon
          exact hp (lt_min (lt_of_not_le h1) hcon)
        have hpb : ¬ 0 < min b q.AvailableQty := fun hcon =>
          absurd (lt_of_lt_of_le hcon (min_le_right _ _)) (not_lt.mpr hq0)
        rw [if_neg hp, if_neg hpb]
        exact ih a b hpr' h0 hab

/-! Assignment facts. -/

theorem assignment_sum_nonneg (offers : List QuoteRow) (as : List ℚ)
    (h : Assignment offers as) : 0 ≤ as.sum := by
  unfold Assignment at h
  induction offers generalizing as with
  | nil =>
    rw [List.forall₂_nil_right_iff.mp h]
    simp
  | cons q rest ih =>
    obtain ⟨av, as₀, hx, ht, rfl⟩ := List.forall₂_cons_right_iff.mp h
    have := ih as₀ ht
    simp only [List.sum_cons]
    linarith [hx.1]

theorem assignment_sum_le (offers : List QuoteRow) (as : List ℚ)
    (h : Assignment offers as) :
    as.sum ≤ (offers.map (fun q => q.AvailableQty)).sum := by
  unfold Assignment at h
  induction offers generalizing as with
  | nil =>
    rw [List.forall₂_nil_right_iff.mp h]
    simp
  | cons q rest ih =>
    obtain ⟨av, as₀, hx, ht, rfl⟩ := List.forall₂_cons_right_iff.mp h
    have := ih as₀ ht
    simp only [List.sum_cons, List.map_cons]
    linarith [hx.2]

theorem assignCost_nonneg (offers : List QuoteRow) (as : List ℚ)
    (h : Assignment offers as) (hpr : ∀ q ∈ offers, 0 ≤ q.UnitPrice) :
    0 ≤ assignCost offers as := by
  unfold Assignment at h
  induction offers generalizing as with
  | nil =>
    rw [List.forall₂_nil_right_iff.mp h]
    simp [assignCost]
  | cons q rest ih =>
    obtain ⟨av, as₀, hx, ht, rfl⟩ := List.forall₂_cons_right_iff.mp h
    have hrec := ih as₀ ht (fun r hr => hpr r (List.mem_cons_of_mem _ hr))
    have hq := hpr q (List.mem_cons_self _ _)
    simp only [assignCost, List.zip_cons_cons, List.map_cons, List.sum_cons] at hrec ⊢
    have : 0 ≤ av * q.UnitPrice := mul_nonneg hx.1 hq
    linarith

/-- Feasible assignments transfer across permutations of the offers,
preserving total quantity and cost. -/
theorem assignment_perm (l l' : List QuoteRow) (h : l.Perm l') (as : List ℚ)
    (ha : Assignment l as) :
    ∃ as', Assignment l' as' ∧ as'.sum = as.sum ∧ assignCost l' as' = assignCost l as := by
  induction h generalizing as with
  | nil => exact ⟨as, ha, rfl, rfl⟩
  | cons x _ ih =>
    obtain ⟨av, as₀, hx, ht, rfl⟩ := List.forall₂_cons_right_iff.mp ha
    obtain ⟨as', h1, h2, h3⟩ := ih as₀ ht
    refine ⟨av :: as', List.Forall₂.cons hx h1, ?_, ?_⟩
    · simp [h2]
    · simp only [assignCost, List.zip_cons_cons, List.map_cons, List.sum_cons] at h3 ⊢
      rw [h3]
  | swap x y t =>
    obtain ⟨av, as₁, hx, ht, rfl⟩ := List.forall₂_cons_right_iff.mp ha
    obtain ⟨bv, as₀, hy, ht', rfl⟩ := List.forall₂_cons_right_iff.mp ht
    refine ⟨bv :: av :: as₀, List.Forall₂.cons hy (List.Forall₂.cons hx ht'), ?_, ?_⟩
    · simp only [List.sum_cons]
      ring
    · simp only [assignCost, List.zip_cons_cons, List.map_cons, List.sum_cons]
      ring
  | trans _ _ ih1 ih2 =>
    obtain ⟨as₁, h1, h2, h3⟩ := ih1 as ha
    obtain ⟨as₂, h4, h5, h6⟩ := ih2 as₁ h1
    exact ⟨as₂, h4, by rw [h5, h2], by rw [h6, h3]⟩

theorem sortByUnitPrice_sorted (qs : List QuoteRow) :
    List.Pairwise (fun a b => a.UnitPrice ≤ b.UnitPrice) (sortByUnitPrice qs) := by
  letI : IsTotal QuoteRow (fun a b => a.UnitPrice ≤ b.UnitPrice) :=
    ⟨fun a b => le_total a.UnitPrice b.UnitPrice⟩
  letI : IsTrans QuoteRow (fun a b => a.UnitPrice ≤ b.UnitPrice) :=
    ⟨fun _ _ _ hab hbc => le_trans hab hbc⟩
  exact List.sorted_insertionSort _ qs

/-- Greedy optimality on a price-sorted offer list: walking the offers
cheapest-first and taking as much as possible is no more expensive than any
feasible assignment of the same total quantity. -/
theorem autoLoop_min_cost (part : String) (qs : List QuoteRow)
    (hsorted : List.Pairwise (fun a b => a.UnitPrice ≤ b.UnitPrice) qs)
    (hav : ∀ q ∈ qs, 0 ≤ q.AvailableQty) (hpr : ∀ q ∈ qs, 0 ≤ q.UnitPrice)
    (as : List ℚ) (ha : Assignment qs as) :
    costSum (autoLoop part as.sum qs).1 ≤ assignCost qs as := by
  induction qs generalizing as with
  | nil =>
    rw [List.forall₂_nil_right_iff.mp ha]
    simp [autoLoop, costSum, assignCost]
  | cons q rest ih =>
    obtain ⟨av, as₀, hx, ht, rfl⟩ := List.forall₂_cons_right_iff.mp ha
    have hsorted' := (List.pairwise_cons.mp hsorted).2
    have hhead := (List.pairwise_cons.mp hsorted).1
    have hav' : ∀ r ∈ rest, 0 ≤ r.AvailableQty :=
      fun r hr => hav r (List.mem_cons_of_mem _ hr)
    have hpr' : ∀ r ∈ rest, 0 ≤ r.UnitPrice :=
      fun r hr => hpr r (List.mem_cons_of_mem _ hr)
    have hsum0 : 0 ≤ as₀.sum := assignment_sum_nonneg rest as₀ ht
    have hsumle : as₀.sum ≤ (rest.map (fun r => r.AvailableQty)).sum :=
      assignment_sum_le rest as₀ ht
    simp only [List.sum_cons]
    by_cases hS : av + as₀.sum ≤ 0
    · rw [show autoLoop part (av + as₀.sum) (q :: rest)
          = ([], av + as₀.sum) from by simp [autoLoop, hS]]
      simp only [costSum, List.map_nil, List.sum_nil]
      exact assignCost_nonneg (q :: rest) (av :: as₀)
        (List.Forall₂.cons hx ht) hpr
    · have hSpos : 0 < av + as₀.sum := lt_of_not_le hS
      set S := av + as₀.sum with hSdef
      by_cases hg : 0 < min S q.AvailableQty
      · set g := min S q.AvailableQty with hgdef
        have hga : av ≤ g := le_min (by linarith) hx.2
        have hgS : g ≤ S := min_le_left _ _
        have hfull1 : (autoLoop part (S - av) rest).2 = 0 :=
          autoLoop_full part rest (S - av) hav' (by linarith)
            (by have hc : S - av = as₀.sum := by rw [hSdef]; ring
                rw [hc]; exact hsumle)
        have hfull2 : (autoLoop part (S - g) rest).2 = 0 :=
          autoLoop_full part rest (S - g) hav' (by linarith)
            (by have : S - g ≤ S - av := by linarith
                calc S - g ≤ S - av := this
                  _ = as₀.sum := by rw [hSdef]; ring
                  _ ≤ _ := hsumle)
        have hslope := autoLoop_cost_slope part rest q.UnitPrice (S - g) (S - av)
          hhead (by linarith) (by linarith)
        rw [hfull1, hfull2] at hslope
        have hih := ih hsorted' hav' hpr' as₀ ht
        have hIHsum : as₀.sum = S - av := by rw [hSdef]; ring
        rw [hIHsum] at hih
        rw [show autoLoop part S (q :: rest)
            = (⟨part, q.Supplier, g, q.UnitPrice, g * q.UnitPrice,
                "Auto-Optimized"⟩ :: (autoLoop part (S - g) rest).1,
               (autoLoop part (S - g) rest).2) from by
          simp only [autoLoop, if_neg (not_le.mpr hSpos), hgdef, if_pos hg]]
        simp only [costSum, List.map_cons, List.sum_cons, assignCost,
          List.zip_cons_cons] at hih hslope ⊢
        have hexp : (S - av - 0 - (S - g - 0)) * q.UnitPrice
            = (g - av) * q.UnitPrice := by ring
        rw [hexp] at hslope
        nlinarith [hslope, hih]
      · have hq0 : q.AvailableQty ≤ 0 := by
          by_contra hcon
          push_neg at hcon
          exact hg (lt_min hSpos hcon)
        have hav0 : q.AvailableQty = 0 :=
          le_antisymm hq0 (hav q (List.mem_cons_self _ _))
        have hx0 : av = 0 := le_antisymm (hav0 ▸ hx.2) hx.1
        rw [show autoLoop part S (q :: rest) = autoLoop part S rest from by
          simp only [autoLoop, if_neg (not_le.mpr hSpos), if_neg hg]]
        have hih := ih hsorted' hav' hpr' as₀ ht
        have hS0 : S = as₀.sum := by rw [hSdef, hx0]; ring
        rw [hS0]
        simp only [assignCost, List.zip_cons_cons, List.map_cons, List.sum_cons]
        rw [hx0]
        simp only [zero_mul, zero_add]
        exact hih

/-- C4: for every unpinned part, the cost of the allocation the generator
produces (over its offer-backed lines) is at most the cost of ANY feasible
assignment of the same total quantity to that part's offers, each offer
capped at its availability — the greedy cheapest-first walk is cost-minimal. -/
theorem claim_C4 (orders : List OrderRow) (quotes : List QuoteRow)
    (sels : List (String × String)) (p : String) (o : OrderRow) (as : List ℚ)
    (hp : p ∈ orders.map (fun r => r.PartNumber))
    (hfind : orders.find? (fun r => r.PartNumber == p) = some o)
    (hnopin : lookupSel sels p = none)
    (hqty : 0 ≤ o.QtyRequired)
    (hav : ∀ q ∈ quotes, 0 ≤ q.AvailableQty)
    (hpr : ∀ q ∈ quotes, 0 ≤ q.UnitPrice)
    (ha : Assignment (quotes.filter (fun q => q.PartNumber == p)) as)
    (hsum : as.sum
      = qtySum (properLines (linesFor (final_allocation orders quotes sels) p))) :
    costSum (properLines (linesFor (final_allocation orders quotes sels) p))
      ≤ assignCost (quotes.filter (fun q => q.PartNumber == p)) as := by
  have hlines : properLines (linesFor (final_allocation orders quotes sels) p)
      = (autoLoop p o.QtyRequired (sortByUnitPrice
          (quotes.filter (fun q => q.PartNumber == p)))).1 := by
    unfold linesFor
    rw [final_allocation_filter _ _ _ _ hp]
    unfold partBlock
    rw [hfind]
    show properLines (allocatePart quotes sels p o.QtyRequired) = _
    rw [allocatePart_noPin _ _ _ _ hnopin, ite_append_short,
      properLines_append_short _ _ _
        (fun l hl => by rw [autoLoop_source _ _ _ l hl]; simp)]
  have hperm : (quotes.filter (fun q => q.PartNumber == p)).Perm
      (sortByUnitPrice (quotes.filter (fun q => q.PartNumber == p))) :=
    (List.perm_insertionSort _ _).symm
  obtain ⟨as', ha', hsum', hcost'⟩ := assignment_perm _ _ hperm as ha
  have hsorted := sortByUnitPrice_sorted (quotes.filter (fun q => q.PartNumber == p))
  have hav' : ∀ q ∈ sortByUnitPrice (quotes.filter (fun q => q.PartNumber == p)),
      0 ≤ q.AvailableQty :=
    fun q hq => hav q (List.mem_of_mem_filter ((mem_sortByUnitPrice _ _).mp hq))
  have hpr' : ∀ q ∈ sortByUnitPrice (quotes.filter (fun q => q.PartNumber == p)),
      0 ≤ q.UnitPrice :=
    fun q hq => hpr q (List.mem_of_mem_filter ((mem_sortByUnitPrice _ _).mp hq))
  have hmin := autoLoop_min_cost p _ hsorted hav' hpr' as' ha'
  have hT : as'.sum = o.QtyRequired - (autoLoop p o.QtyRequired (sortByUnitPrice
      (quotes.filter (fun q => q.PartNumber == p)))).2 := by
    rw [hsum', hsum, hlines]
    simpa [qtySum] using autoLoop_sum p o.QtyRequired
      (sortByUnitPrice (quotes.filter (fun q => q.PartNumber == p)))
  have hreplay := autoLoop_replay p
    (sortByUnitPrice (quotes.filter (fun q => q.PartNumber == p))) o.QtyRequired hqty
  rw [hlines]
  calc costSum (autoLoop p o.QtyRequired (sortByUnitPrice
        (quotes.filter (fun q => q.PartNumber == p)))).1
      = costSum (autoLoop p as'.sum (sortByUnitPrice
          (quotes.filter (fun q => q.PartNumber == p)))).1 := by
        rw [hT, hreplay]
    _ ≤ assignCost (sortByUnitPrice (quotes.filter (fun q => q.PartNumber == p))) as' :=
        hmin
    _ = assignCost (quotes.filter (fun q => q.PartNumber == p)) as := hcost'

theorem claim_C4_witness :
    costSum (properLines (linesFor (final_allocation [⟨"P1", 10⟩]
        [⟨"P1", "A", 5, 6⟩, ⟨"P1", "B", 4, 20⟩] []) "P1"))
      ≤ assignCost (List.filter (fun q => q.PartNumber == "P1")
          ([⟨"P1", "A", 5, 6⟩, ⟨"P1", "B", 4, 20⟩] : List QuoteRow)) [6, 4] :=
  claim_C4 [⟨"P1", 10⟩] [⟨"P1", "A", 5, 6⟩, ⟨"P1", "B", 4, 20⟩] [] "P1" ⟨"P1", 10⟩
    [6, 4] (by decide) (by decide) (by decide) (by norm_num)
    (by intro q hq; fin_cases hq <;> norm_num)
    (by intro q hq; fin_cases hq <;> norm_num)
    (by
      unfold Assignment
      rw [show List.filter (fun q => q.PartNumber == "P1")
          ([⟨"P1", "A", 5, 6⟩, ⟨"P1", "B", 4, 20⟩] : List QuoteRow)
          = [⟨"P1", "A", 5, 6⟩, ⟨"P1", "B", 4, 20⟩] from by decide]
      exact List.Forall₂.cons ⟨by norm_num, by norm_num⟩
        (List.Forall₂.cons ⟨by norm_num, by norm_num⟩ List.Forall₂.nil))
    (by
      norm_num [final_allocation, partBlock, allocatePart, uniqueKeys, uniqueKeysAux,
        lookupSel, sortByUnitPrice, List.insertionSort, List.orderedInsert, autoLoop,
        remainingLoop, shortageLine, linesFor, properLines, qtySum, List.filter_cons,
        List.find?, min_def]
      simp +decide [])

end SupplierQuoteOptimizer
